import Mathlib

/-!
Verification of the markdown document engine in `bin/docs` (parser.py,
markdown.py, build_standalone_md.py).

Text is modelled as `List Char`.  Python strings become `List Char`, the
`Parser` class becomes a structure over an immutable buffer plus an offset,
and the tokenizer loops become fuel-indexed recursions (the fuel is always
instantiated with the number of remaining characters, which bounds the number
of loop iterations).  Fallible Python code (`list.index` raising `ValueError`,
out-of-range indexing raising `IndexError`, a failing `assert`) is modelled
with `Except` / `Option`.
-/

set_option maxHeartbeats 1000000

/-! ## parser.py -/

/-- The `Parser` class of parser.py: an immutable text buffer and an offset. -/
structure Parser where
  buffer : List Char
  offset : Nat
deriving DecidableEq, Repr

namespace Parser

/-- `Parser.left`: the number of characters left to read. -/
def left (p : Parser) : Nat :=
  p.buffer.length - p.offset

/-- `Parser.read(count)`: return `count` characters and advance; if fewer than
`count` characters remain it returns the empty string and does not move. -/
def read (p : Parser) (count : Nat) : List Char × Parser :=
  if p.left < count then ([], p)
  else ((p.buffer.drop p.offset).take count, { p with offset := p.offset + count })

/-- `Parser.peek(count)`: like `read` but without advancing the offset. -/
def peek (p : Parser) (count : Nat) : List Char :=
  if p.left < count then []
  else (p.buffer.drop p.offset).take count

/-- `Parser.read_while(f)`: consume the maximal run of characters satisfying
`f` (the character-by-character source loop computes exactly the longest
prefix of the remaining buffer on which `f` holds). -/
def read_while (p : Parser) (f : Char → Bool) : List Char × Parser :=
  let s := (p.buffer.drop p.offset).takeWhile f
  (s, { p with offset := p.offset + s.length })

/-- `Parser.peek_while(f)`: like `read_while` but without advancing. -/
def peek_while (p : Parser) (f : Char → Bool) : List Char :=
  (p.buffer.drop p.offset).takeWhile f

end Parser

/-! ## markdown.py: nodes -/

/-- The `Node` class hierarchy of markdown.py as a tagged union.  Every
variant stores its `content` field (`None` never occurs in practice: each
concrete class assigns `content` in its constructor, so `content` is plain
text here and the Python truthiness test `if node.content` becomes `≠ []`).

The `id` field of `header` is `Modelled from the spec:` the markdown.py
under verification predates the `id`-aware `Header` that
build_standalone_md.py's `add_header_id` and its `{#id}` anchors require
(build_standalone_md.py also imports `Table`, absent from this markdown.py);
per the spec a header's content is regenerated from title/level/optional id,
with format: level hash characters, a space, the title, an optional
space-brace-hash-id-brace suffix, and a newline. -/
inductive Node where
  | code (content : List Char)
  | paragraph (content : List Char)
  | whitespace (content : List Char)
  | header (title : List Char) (level : Int) (id : Option (List Char)) (content : List Char)
  | refLink (ref : List Char) (link : List Char) (content : List Char)
deriving DecidableEq, Repr

namespace Node

/-- The `content` attribute common to all node classes. -/
def content : Node → List Char
  | .code c => c
  | .paragraph c => c
  | .whitespace c => c
  | .header _ _ _ c => c
  | .refLink _ _ c => c

/-- `isinstance(node, RefLink)`. -/
def isRefLink : Node → Bool
  | .refLink _ _ _ => true
  | _ => false

/-- `isinstance(node, Header)`. -/
def isHeader : Node → Bool
  | .header _ _ _ _ => true
  | _ => false

/-- `isinstance(node, Paragraph)`. -/
def isParagraph : Node → Bool
  | .paragraph _ => true
  | _ => false

end Node

/-- `build_header(title, level)` of markdown.py, extended with the optional
anchor id.  `Modelled from the spec:` the id-aware variant (needed by
`add_header_id`) is not in the provided markdown.py; the spec gives the
format as level hash characters, space, title, optional space-brace-hash-id
-brace suffix, newline.  With `id = none` this is exactly the source's
`build_header` (note Python's `"#" * level` is empty for `level ≤ 0`,
matching `Int.toNat`). -/
def build_header (title : List Char) (level : Int) (id : Option (List Char)) : List Char :=
  List.replicate level.toNat '#' ++ ' ' :: title
    ++ (match id with
        | some i => ' ' :: '\x7b' :: '#' :: i ++ ['\x7d']
        | none => [])
    ++ ['\n']

/-- `RefLink.update_content`: the regenerated text of a reference link. -/
def ref_link_content (ref : List Char) (link : List Char) : List Char :=
  '[' :: ref ++ ']' :: ':' :: ' ' :: link ++ ['\n']

namespace Header

/-- `Header.indent(count)`: `level += count` followed by `update_content`
(non-header nodes are untouched; markdown.py only ever calls this on
headers). -/
def indent (count : Int) : Node → Node
  | .header t l i _ => .header t (l + count) i (build_header t (l + count) i)
  | n => n

end Header

/-! ## markdown.py: tokenizer -/

/-- `is_whitespace(c)`. -/
def is_whitespace (c : Char) : Bool :=
  c = ' ' || c = '\t' || c = '\n'

/-- `is_blank(line)`: true iff the line is made of whitespace only. -/
def is_blank (line : List Char) : Bool :=
  line.all is_whitespace

/-- `parse_whitespace(parser)`. -/
def parse_whitespace (p : Parser) : Node × Parser :=
  let (content, p1) := p.read_while is_whitespace
  (.whitespace content, p1)

/-- The `while` loop of `parse_code`, indexed by fuel (each iteration consumes
at least one character, so `p.left` iterations always suffice; at fuel 0 the
result coincides with the exhausted-input exit of the loop). -/
def parse_code_go (fuel : Nat) (separator : List Char) (content : List Char)
    (p : Parser) : Node × Parser :=
  match fuel with
  | 0 => (.code content, p)
  | fuel + 1 =>
    if p.peek 1 = [] then (.code content, p)
    else
      let c := p.peek 3
      if c = separator then
        let (s, p1) := p.read 3
        (.code (content ++ s), p1)
      else
        let (s, p1) := p.read 1
        parse_code_go fuel separator (content ++ s) p1

/-- `parse_code(parser)`: a code block between two identical 3-character
fences, or running to end of input when unterminated. -/
def parse_code (p : Parser) : Node × Parser :=
  let (separator, p1) := p.read 3
  parse_code_go p1.left separator separator p1

/-- `parse_header(parser)`: hash run (its length is the level), whitespace
run, title up to end of line, terminating newline; the node's content is
regenerated by `Header.__init__` via `update_content`. -/
def parse_header (p : Parser) : Node × Parser :=
  let (hashes, p1) := p.read_while (fun it => it = '#')
  let (_, p2) := p1.read_while (fun it => is_whitespace it)
  let (title, p3) := p2.read_while (fun it => it ≠ '\n')
  let (_, p4) := p3.read 1
  (.header title (hashes.length : Int) none (build_header title (hashes.length : Int) none), p4)

/-- Matchability of `re.match(r"\[.+]: .+", line)`: scanning for a split
`line = '[' :: A ++ ']' :: ':' :: ' ' :: B` with `A` and `B` nonempty (the
regex `.` cannot match a newline, but a peeked line never contains one). -/
def ref_link_guard_go : List Char → Bool
  | [] => false
  | _ :: rest =>
    (match rest with
     | ']' :: ':' :: ' ' :: _ :: _ => true
     | _ => false)
    || ref_link_guard_go rest

/-- `re.match(r"\[.+]: .+", line) is not None`. -/
def ref_link_guard : List Char → Bool
  | '[' :: rest => ref_link_guard_go rest
  | _ => false

/-- Whether the remainder `R` behind `"]:"` can match `\s+.+`: a whitespace
first character and at least two characters in total. -/
def ref_link_rest_ok (r : List Char) : Bool :=
  match r with
  | c :: _ :: _ => c.isWhitespace
  | _ => false

/-- The rightmost split `rest = A ++ ']' :: ':' :: R` with `A` nonempty and
`R` matching `\s+.+`; this is the capture chosen by the greedy `.+` in
`re.match(r"\[(?P<ref>.+)]:\s+(?P<link>.+)", line)`. -/
def ref_link_split : List Char → Option (List Char × List Char)
  | [] => none
  | a :: rest =>
    match ref_link_split rest with
    | some (A, R) => some (a :: A, R)
    | none =>
      match rest with
      | ']' :: ':' :: R => if ref_link_rest_ok R then some ([a], R) else none
      | _ => none

/-- The `link` capture inside the remainder `R`: the greedy `\s+` takes the
maximal whitespace run but gives back characters until `.+` can match at
least one character. -/
def ref_link_link (r : List Char) : List Char :=
  let w := (r.takeWhile Char.isWhitespace).length
  r.drop (min w (r.length - 1))

/-- The `re.match(r"\[(?P<ref>.+)]:\s+(?P<link>.+)", line)` captures, or
`none` when the line does not match. -/
def ref_link_extract (line : List Char) : Option (List Char × List Char) :=
  match line with
  | '[' :: rest =>
    match ref_link_split rest with
    | some (A, R) => some (A, ref_link_link R)
    | none => none
  | _ => none

/-- `parse_ref_link(parser)`: read the line and its newline, then extract the
`ref` and `link` captures; `none` models the `assert ret is not None` failing
(unreachable under the caller's guard).  The node's content is regenerated by
`RefLink.__init__` via `update_content`. -/
def parse_ref_link (p : Parser) : Option (Node × Parser) :=
  let (line, p1) := p.read_while (fun it => it ≠ '\n')
  let (_, p2) := p1.read 1
  match ref_link_extract line with
  | some (ref, link) => some (.refLink ref link (ref_link_content ref link), p2)
  | none => none

/-- The `while` loop of `parse_paragraph`, indexed by fuel (each iteration
consumes one character). -/
def parse_paragraph_go (fuel : Nat) (content : List Char) (p : Parser) : Node × Parser :=
  match fuel with
  | 0 => (.paragraph content, p)
  | fuel + 1 =>
    if p.peek 1 = [] then (.paragraph content, p)
    else if p.peek 1 = ['\n'] then
      let (s, p1) := p.read 1
      let content := content ++ s
      let line := p1.peek_while (fun it => it ≠ '\n')
      if is_blank line then (.paragraph content, p1)
      else parse_paragraph_go fuel content p1
    else
      let (s, p1) := p.read 1
      parse_paragraph_go fuel (content ++ s) p1

/-- `parse_paragraph(parser)`: free text, stopping after a newline whose
following line is blank. -/
def parse_paragraph (p : Parser) : Node × Parser :=
  parse_paragraph_go p.left [] p

/-- One iteration of the `parse_markdown` dispatch loop.  `none` models the
`AssertionError` of `parse_ref_link` (and is also returned on an exhausted
buffer, which the loop never passes in). -/
def parse_markdown_step (p : Parser) : Option (Node × Parser) :=
  match p.peek 1 with
  | [] => none
  | c :: _ =>
    if is_whitespace c then some (parse_whitespace p)
    else if (c = '-' || c = '~' || c = '\x60')
        && (p.peek 3 = ['-', '-', '-'] || p.peek 3 = ['~', '~', '~']
            || p.peek 3 = ['\x60', '\x60', '\x60']) then
      some (parse_code p)
    else if c = '#' then some (parse_header p)
    else if c = '[' && ref_link_guard (p.peek_while (fun it => it ≠ '\n')) then
      parse_ref_link p
    else some (parse_paragraph p)

/-- The `while parser.peek() != ""` loop of `parse_markdown`, appending each
node to the root document, indexed by fuel. -/
def parse_markdown_go (fuel : Nat) (p : Parser) (acc : List Node) : Option (List Node) :=
  match fuel with
  | 0 => some acc
  | fuel + 1 =>
    if p.peek 1 = [] then some acc
    else
      match parse_markdown_step p with
      | none => none
      | some (node, p1) => parse_markdown_go fuel p1 (acc ++ [node])

/-! ## markdown.py: the document -/

/-- The `MarkdownDoc` class: an ordered, mutable collection of nodes. -/
structure MarkdownDoc where
  children : List Node
deriving DecidableEq, Repr

/-- `parse_markdown(text)`: tokenize a text into a document.  `none` models
the unreachable `AssertionError` inside `parse_ref_link`. -/
def parse_markdown (text : List Char) : Option MarkdownDoc :=
  let p : Parser := { buffer := text, offset := 0 }
  (parse_markdown_go p.left p []).map (fun ns => { children := ns })

/-- Python exceptions raised by list operations. -/
inductive PyErr where
  | indexError
  | valueError
deriving DecidableEq, Repr

/-- `list.index(x)`: the first position of an equal element, or `ValueError`
(Python compares `Node` objects by identity; the model compares structurally,
which agrees whenever the document has no duplicate nodes). -/
def list_index (l : List Node) (x : Node) : Except PyErr Nat :=
  match l.findIdx? (fun y => y == x) with
  | some i => .ok i
  | none => .error .valueError

namespace MarkdownDoc

/-- `MarkdownDoc.to_text`: non-`RefLink` nodes in order, then the `RefLink`
nodes in order, keeping each node's content when it is truthy. -/
def to_text (d : MarkdownDoc) : List Char :=
  let ref_links_nodes := d.children.filter (fun c => c.isRefLink)
  let other_nodes := d.children.filter (fun c => !c.isRefLink)
  let nodes := other_nodes ++ ref_links_nodes
  ((nodes.filter (fun n => n.content ≠ [])).map Node.content).flatten

/-- `MarkdownDoc.indent(count)`: indent all headers. -/
def indent (d : MarkdownDoc) (count : Int) : MarkdownDoc :=
  { children := d.children.map (fun c => if c.isHeader then Header.indent count c else c) }

/-- `MarkdownDoc.next_node(node)`: the following node.  The source guard is
`index < len(self.children)`, which always holds for a present node, so the
subscript `children[index + 1]` raises `IndexError` when `node` is last; the
`else: return None` branch is unreachable. -/
def next_node (d : MarkdownDoc) (node : Node) : Except PyErr (Option Node) :=
  match list_index d.children node with
  | .error e => .error e
  | .ok index =>
    if index < d.children.length then
      match d.children[index + 1]? with
      | some x => .ok (some x)
      | none => .error .indexError
    else
      .ok none

/-- `MarkdownDoc.previous_node(node)`: the preceding node, or `None` at the
front boundary. -/
def previous_node (d : MarkdownDoc) (node : Node) : Except PyErr (Option Node) :=
  match list_index d.children node with
  | .error e => .error e
  | .ok index =>
    if index > 0 then
      match d.children[index - 1]? with
      | some x => .ok (some x)
      | none => .error .indexError
    else
      .ok none

end MarkdownDoc

/-! ## build_standalone_md.py: slugs and anchors -/

/-- Python's `str.strip()` whitespace (ASCII). -/
def is_py_space (c : Char) : Bool :=
  c = ' ' || c = '\t' || c = '\n' || c = '\r' || c = '\x0b' || c = '\x0c'

/-- Python's `str.strip()`: drop leading and trailing whitespace. -/
def py_strip (s : List Char) : List Char :=
  ((s.dropWhile is_py_space).reverse.dropWhile is_py_space).reverse

/-- The folding performed by `unicodedata.normalize("NFKD", text)
.encode("ascii", "ignore").decode("ascii")`.  `Modelled from the spec:` the
full NFKD table is external library behaviour; ASCII characters are fixed
points, and the accented Latin letters that occur in the verified examples
decompose to their base letter with the combining accents dropped by the
ASCII encode.  All other characters are dropped (`"ignore"`). -/
def ascii_fold (c : Char) : List Char :=
  if c.toNat < 128 then [c]
  else if c = 'é' || c = 'è' || c = 'ê' || c = 'ë' then ['e']
  else if c = 'á' || c = 'à' || c = 'â' || c = 'ä' then ['a']
  else if c = 'ç' then ['c']
  else if c = 'î' || c = 'ï' then ['i']
  else if c = 'ô' || c = 'ö' then ['o']
  else if c = 'û' || c = 'ü' || c = 'ù' then ['u']
  else []

/-- Python's `\w` on ASCII text: letters, digits and the underscore. -/
def is_word_char (c : Char) : Bool :=
  c.isAlpha || c.isDigit || c = '_'

/-- Python's `\s` on ASCII text. -/
def is_regex_space (c : Char) : Bool :=
  c = ' ' || c = '\t' || c = '\n' || c = '\r' || c = '\x0b' || c = '\x0c'

/-- `re.sub(r"[-\s]+", "-", text)`: each maximal run of hyphens/whitespace
becomes a single hyphen.  The boolean records whether the previous character
belonged to such a run, in which case the run already emitted its hyphen. -/
def collapse_runs_go (in_run : Bool) : List Char → List Char
  | [] => []
  | c :: rest =>
    if is_regex_space c || c = '-' then
      if in_run then collapse_runs_go true rest
      else '-' :: collapse_runs_go true rest
    else c :: collapse_runs_go false rest

/-- `re.sub(r"[-\s]+", "-", text)`. -/
def collapse_runs (s : List Char) : List Char :=
  collapse_runs_go false s

/-- `slugify(text)` of build_standalone_md.py (identical to the local
`slugify` inside `MarkdownDoc.toc`): ASCII-fold, delete every character
outside the word/whitespace/slash/hyphen class, strip, lowercase, collapse hyphen/whitespace runs to a
single hyphen, then delete slashes. -/
def slugify (text : List Char) : List Char :=
  let t1 := text.flatMap ascii_fold
  let t2 := t1.filter (fun c => is_word_char c || is_regex_space c || c = '/' || c = '-')
  let t3 := py_strip t2
  let t4 := t3.map Char.toLower
  let t5 := collapse_runs t4
  t5.filter (fun c => c ≠ '/')

/-- `add_header_id(header, prefix)` of build_standalone_md.py: compute the
slug of the title, prepend the prefix when given, store it as the header's
`id` and regenerate the content (`update_content`).  Non-header nodes are
untouched (the source only calls this on headers). -/
def add_header_id (header : Node) (pfx : Option (List Char)) : Node :=
  match header with
  | .header t l _ _ =>
    let slug := slugify t
    let i := match pfx with
      | some pf => pf ++ '-' :: slug
      | none => slug
    .header t l (some i) (build_header t l (some i))
  | n => n

/-! ## build_standalone_md.py: reference-link inlining -/

/-- The side-channel diagnostics written to stderr by `inline_ref_link`. -/
inductive Diag where
  | no_ref (ref : List Char)
  | inlined (ref : List Char) (new : List Char)
deriving DecidableEq, Repr

/-- `next((n for n in ref_nodes if n.ref == ref), None)`: the first reference
link node with the given label, returning its `link`. -/
def lookup_ref (links : List Node) (ref : List Char) : Option (List Char) :=
  match links.find? (fun n =>
    match n with
    | .refLink r _ _ => r == ref
    | _ => false) with
  | some (.refLink _ l _) => some l
  | _ => none

/-- `re.sub(r"\[(?P<ref>.+?)]", repl, content)` with the `repl` closure of
`inline_ref_link`, also collecting the stderr diagnostics.  A match starts at
a literal opening bracket; the non-greedy `.+?` captures up to the first
closing bracket after at least one character, and `.` never matches a
newline.  On a match with a known label the occurrence becomes
`[ref](link.strip())`; with an unknown label `repl` returns the occurrence
unchanged and writes the "No ref" notice; scanning resumes after the match. -/
def ref_sub (links : List Node) (s : List Char) : List Char × List Diag :=
  match s with
  | [] => ([], [])
  | ['['] => (['['], [])
  | '[' :: c0 :: r0 =>
    if c0 = '\n' then
      let (t, d) := ref_sub links (c0 :: r0)
      ('[' :: t, d)
    else
      let mid := r0.takeWhile (fun c => c ≠ ']' && c ≠ '\n')
      let rest2 := r0.dropWhile (fun c => c ≠ ']' && c ≠ '\n')
      match h2 : rest2 with
      | ']' :: after =>
        let ref := c0 :: mid
        let (t, d) := ref_sub links after
        match lookup_ref links ref with
        | some link =>
          let url := py_strip link
          let new := '[' :: ref ++ ']' :: '(' :: url ++ [')']
          (new ++ t, .inlined ref new :: d)
        | none =>
          (('[' :: ref ++ [']']) ++ t, .no_ref ref :: d)
      | _ =>
        let (t, d) := ref_sub links (c0 :: r0)
        ('[' :: t, d)
  | c :: rest =>
    let (t, d) := ref_sub links rest
    (c :: t, d)
termination_by s.length
decreasing_by
  · simp
  · simp only [List.length_cons]
    have h1 : rest2.length ≤ r0.length := (List.dropWhile_suffix _).length_le
    have h3 : after.length < rest2.length := by
      rw [h2]; simp
    omega
  · simp
  · simp [Nat.lt_succ_iff]

/-- `inline_ref_link(md)` of build_standalone_md.py: rewrite every paragraph
through `ref_sub` against the document's reference links, then delete all
reference-link nodes; also returns the concatenated diagnostics. -/
def inline_ref_link (d : MarkdownDoc) : MarkdownDoc × List Diag :=
  let ref_nodes := d.children.filter (fun c => c.isRefLink)
  let results := d.children.map (fun c =>
    match c with
    | .paragraph content =>
      let (t, diag) := ref_sub ref_nodes content
      (Node.paragraph t, diag)
    | n => (n, ([] : List Diag)))
  let children1 := results.map Prod.fst
  let diags := (results.map Prod.snd).flatten
  ({ children := children1.filter (fun n => !n.isRefLink) }, diags)

/-! ## The `Table` node and its reformat (markdown.test.py / spec section 8)

`Modelled from the spec:` the `Table` class itself lives in the repository's
markdown.py, which here only ships without it although markdown.test.py and
build_standalone_md.py import and exercise it.  Per the spec, `reformat`
recomputes each column's width as the maximum natural (stripped) cell width,
pads every cell with one space on each side, rebuilds the separator row of
dashes to the same widths and rewrites the content; the model below
reproduces the `test_normalize_table` unit test byte for byte. -/

/-- Python's `text.split(sep)` for a one-character separator: the pieces
never contain the separator and the split of a concatenation with separators
recovers the pieces. -/
def split_char (sep : Char) : List Char → List (List Char)
  | [] => [[]]
  | c :: rest =>
    if c = sep then [] :: split_char sep rest
    else
      match split_char sep rest with
      | [] => [[c]]
      | h :: t => (c :: h) :: t

/-- The cells of one table line: the text between the pipes (dropping the
text before the first and after the last pipe), each stripped. -/
def table_cells (line : List Char) : List (List Char) :=
  (((split_char '|' line).drop 1).dropLast).map py_strip

/-- Whether a parsed row is the separator row: at least one cell and every
cell a nonempty run of dashes. -/
def is_sep_row (cells : List (List Char)) : Bool :=
  !cells.isEmpty && cells.all (fun c => !c.isEmpty && c.all (fun ch => ch = '-'))

/-- Parse tabular text into rows of stripped cells (blank line fragments are
discarded). -/
def parse_table (content : List Char) : List (List (List Char)) :=
  ((split_char '\n' content).filter (fun l => !l.isEmpty)).map table_cells

/-- The width of column `j`: the maximum natural cell width over the
non-separator rows. -/
def col_width (rows : List (List (List Char))) (j : Nat) : Nat :=
  ((rows.filter (fun r => !is_sep_row r)).filterMap (fun r => r[j]?)).foldr
    (fun c acc => max c.length acc) 0

/-- Render the cells of one row from column `j` on: separator cells become
dash runs of the column width plus the two padding spaces; ordinary cells are
left-aligned between single-space margins; every cell is closed by a pipe. -/
def render_cells (w : Nat → Nat) (sep : Bool) (j : Nat) : List (List Char) → List Char
  | [] => []
  | c :: cs =>
    (if sep then List.replicate (w j + 2) '-'
     else ' ' :: (c ++ List.replicate (w j - c.length) ' ') ++ [' '])
    ++ '|' :: render_cells w sep (j + 1) cs

/-- Render one row: an opening pipe then the cells. -/
def render_row (w : Nat → Nat) (cells : List (List Char)) : List Char :=
  '|' :: render_cells w (is_sep_row cells) 0 cells

/-- Render the whole table, one newline-terminated line per row. -/
def render_table (rows : List (List (List Char))) : List Char :=
  (rows.map (fun r => render_row (col_width rows) r ++ ['\n'])).flatten

/-- The `Table` node (pipe-delimited tabular text). -/
structure Table where
  content : List Char
deriving DecidableEq, Repr

/-- `Table.reformat()`: realign the columns in place. -/
def Table.reformat (t : Table) : Table :=
  { content := render_table (parse_table t.content) }

/-! ## Instrumentation for the round-trip property -/

/-- The substring of the (shared) buffer consumed between two parser states. -/
def slice_between (p q : Parser) : List Char :=
  (p.buffer.drop p.offset).take (q.offset - p.offset)

/-- Along the run of the tokenizer, whether every step that emitted a
`Header` or `RefLink` node regenerated exactly the text it consumed (the
other node kinds always carry exactly their consumed text). -/
def parse_markdown_steps_exact (fuel : Nat) (p : Parser) : Bool :=
  match fuel with
  | 0 => true
  | fuel + 1 =>
    if p.peek 1 = [] then true
    else
      match parse_markdown_step p with
      | none => false
      | some (node, p1) =>
        (match node with
         | .header _ _ _ _ => decide (node.content = slice_between p p1)
         | .refLink _ _ _ => decide (node.content = slice_between p p1)
         | _ => true)
        && parse_markdown_steps_exact fuel p1

/-- The exactness instrument applied to a whole input text. -/
def steps_exact (text : List Char) : Bool :=
  parse_markdown_steps_exact text.length { buffer := text, offset := 0 }

/-- Whether all `RefLink` nodes of a node sequence sit at its end. -/
def ref_links_at_end (ns : List Node) : Bool :=
  (ns.dropWhile (fun n => !n.isRefLink)).all (fun n => n.isRefLink)

/-- The concatenated contents of a node sequence in order. -/
def contents (ns : List Node) : List Char :=
  (ns.map Node.content).flatten

/-- The class invariant of `Header` nodes: the stored content is the
regenerated text of the current title/level/id (established by
`Header.__init__` and maintained by every mutation). -/
def headers_in_sync (d : MarkdownDoc) : Bool :=
  d.children.all (fun c =>
    match c with
    | .header t l i ct => ct == build_header t l i
    | _ => true)

/-- The slug pipeline exactly as the claim words it: the kept class is
letters, digits, the space, the hyphen and the slash (no underscore). -/
def slug_claimed (title : List Char) : List Char :=
  let folded := title.flatMap ascii_fold
  let kept := folded.filter (fun c => c.isAlpha || c.isDigit || c = ' ' || c = '-' || c = '/')
  let trimmed := py_strip kept
  let lowered := trimmed.map Char.toLower
  let collapsed := collapse_runs lowered
  collapsed.filter (fun c => c ≠ '/')

/-- The slug pipeline as the amended claim words it: strip diacritics, keep
only letters/digits/underscores, whitespace, hyphens and slashes, trim,
lowercase, collapse whitespace/hyphen runs to one hyphen, then delete the
slashes. -/
def slug_spec (title : List Char) : List Char :=
  let folded := title.flatMap ascii_fold
  let kept := folded.filter (fun c => c.isAlphanum || c = '_' || is_regex_space c || c = '-' || c = '/')
  let trimmed := py_strip kept
  let lowered := trimmed.map Char.toLower
  let collapsed := collapse_runs lowered
  collapsed.filter (fun c => c ≠ '/')

/-- The cells of a reparsed separator row: a dash run of each column's width
plus the two padding spaces, one per original cell. -/
def sep_dashes (w : Nat → Nat) (j : Nat) : List (List Char) → List (List Char)
  | [] => []
  | _ :: cs => List.replicate (w j + 2) '-' :: sep_dashes w (j + 1) cs

/-! ## Theorems -/

/-- Dropping the empty-content nodes does not change the concatenation. -/
theorem flatten_content_filter (l : List Node) :
    ((l.filter (fun n => n.content ≠ [])).map Node.content).flatten
      = (l.map Node.content).flatten := by
  induction l with
  | nil => rfl
  | cons a l ih =>
    by_cases h : a.content = []
    · simpa [List.filter_cons, h] using ih
    · simpa [List.filter_cons, h] using ih

/-- C2: `to_text()` concatenates the contents of the non-`RefLink` nodes in
sequence order, then the contents of the `RefLink` nodes in their relative
order, so reference-link definitions always serialize at the end. -/
theorem c2_to_text_order (d : MarkdownDoc) :
    d.to_text
      = contents (d.children.filter (fun c => !c.isRefLink))
        ++ contents (d.children.filter (fun c => c.isRefLink)) := by
  unfold MarkdownDoc.to_text contents
  rw [flatten_content_filter]
  simp

/-- C3: a header's content is regenerated from title, level and the optional
id on construction and on every mutation (`indent`, `add_header_id`), in the
format: `level` hash characters, a space, the title, an optional anchor
suffix holding the id, and a newline. -/
theorem c3_header_format :
    (∀ (t : List Char) (l : Int) (i : Option (List Char)) (ct : List Char) (n : Int),
      Header.indent n (Node.header t l i ct)
        = Node.header t (l + n) i (build_header t (l + n) i))
    ∧ (∀ (t : List Char) (l : Int) (i : Option (List Char)) (ct : List Char)
        (pfx : Option (List Char)),
      add_header_id (Node.header t l i ct) pfx
        = Node.header t l (some (pfx.elim (slugify t) (fun pf => pf ++ '-' :: slugify t)))
            (build_header t l
              (some (pfx.elim (slugify t) (fun pf => pf ++ '-' :: slugify t)))))
    ∧ (∀ (t : List Char) (l : Int),
      build_header t l none = List.replicate l.toNat '#' ++ [' '] ++ t ++ ['\n'])
    ∧ (∀ (t : List Char) (l : Int) (i : List Char),
      build_header t l (some i)
        = List.replicate l.toNat '#' ++ [' '] ++ t ++ [' ', '\x7b', '#'] ++ i ++ ['\x7d', '\n']) := by
  refine ⟨?_, ?_, ?_, ?_⟩
  · intro t l i ct n
    rfl
  · intro t l i ct pfx
    cases pfx <;> rfl
  · intro t l
    simp [build_header]
  · intro t l i
    simp [build_header]

/-- C4: `next_node` on the last node of a document raises `IndexError`
instead of returning the "not found" value: the guard `index <
len(self.children)` always holds for a present node, so `children[index+1]`
is evaluated out of range and the `else: return None` branch is dead code.
On interior nodes `next_node` does return the following node, and
`previous_node` does return `None` at the front boundary. -/
theorem c4_next_node_boundary :
    MarkdownDoc.next_node ⟨[Node.paragraph ['a']]⟩ (Node.paragraph ['a'])
        = Except.error PyErr.indexError
    ∧ MarkdownDoc.next_node ⟨[Node.paragraph ['a'], Node.paragraph ['b']]⟩ (Node.paragraph ['a'])
        = Except.ok (some (Node.paragraph ['b']))
    ∧ MarkdownDoc.previous_node ⟨[Node.paragraph ['a']]⟩ (Node.paragraph ['a'])
        = Except.ok none := by
  refine ⟨?_, ?_, ?_⟩ <;> rfl

/-- C8 counterexample: `indent(-1)` on a level-1 header drives the level to
0, below 1 — `Header.indent` adds the count without any clamping. -/
theorem c8_indent_counterexample :
    (MarkdownDoc.indent ⟨[Node.header ['a'] 1 none ['#', ' ', 'a', '\n']]⟩ (-1)).children
        = [Node.header ['a'] 0 none [' ', 'a', '\n']]
    ∧ (0 : Int) < 1 := by
  refine ⟨?_, by decide⟩
  rfl

/-- C8 (amended): `indent(n)` adds `n` to the level of every header child
and regenerates its content from the new level, leaving every non-header
child untouched; the level is not clamped and may drop below 1. -/
theorem c8_indent_amended (d : MarkdownDoc) (n : Int) :
    (d.indent n).children.length = d.children.length
    ∧ (∀ (i : Nat) (t : List Char) (l : Int) (id : Option (List Char)) (ct : List Char),
        d.children[i]? = some (.header t l id ct) →
        (d.indent n).children[i]? = some (.header t (l + n) id (build_header t (l + n) id)))
    ∧ (∀ (i : Nat) (c : Node), d.children[i]? = some c → c.isHeader = false →
        (d.indent n).children[i]? = some c) := by
  refine ⟨?_, ?_, ?_⟩
  · simp [MarkdownDoc.indent]
  · intro i t l id ct h
    simp [MarkdownDoc.indent, h, Node.isHeader, Header.indent]
  · intro i c h hc
    simp [MarkdownDoc.indent, h, hc]

/-- C8 witness: the amended theorem applied to a two-node document. -/
theorem c8_indent_amended_witness :
    (MarkdownDoc.indent ⟨[Node.header ['a'] 1 none ['#', ' ', 'a', '\n'], Node.paragraph ['x']]⟩ 2).children[0]?
      = some (Node.header ['a'] 3 none (build_header ['a'] 3 none)) :=
  (c8_indent_amended ⟨[Node.header ['a'] 1 none ['#', ' ', 'a', '\n'], Node.paragraph ['x']]⟩ 2).2.1
    0 ['a'] 1 none ['#', ' ', 'a', '\n'] (by decide)

/-- Indenting by `n` and then by `-n` is the identity on any single node
whose header content is in sync. -/
theorem indent_indent_cancel (n : Int) (c : Node)
    (hc : (match c with
           | .header t l i ct => ct == build_header t l i
           | _ => true) = true) :
    (fun c => if c.isHeader then Header.indent (-n) c else c)
      ((fun c => if c.isHeader then Header.indent n c else c) c) = c := by
  cases c with
  | header t l i ct =>
    simp only [beq_iff_eq] at hc
    have hl : l + n + -n = l := by omega
    simp [Node.isHeader, Header.indent, hl, hc]
  | code ct => rfl
  | paragraph ct => rfl
  | whitespace ct => rfl
  | refLink r lk ct => rfl

/-- C9: `indent(n)` followed by `indent(-n)` restores every header's level
and content and leaves non-header nodes untouched, for any document whose
headers carry their regenerated content (the `Header` class invariant). -/
theorem c9_indent_inverse (d : MarkdownDoc) (n : Int) (h : headers_in_sync d = true) :
    (d.indent n).indent (-n) = d := by
  cases d with
  | mk children =>
    simp only [MarkdownDoc.indent, MarkdownDoc.mk.injEq, List.map_map]
    have hall := List.all_eq_true.mp h
    calc children.map _ = children.map id := by
          apply List.map_congr_left
          intro c hcmem
          exact indent_indent_cancel n c (hall c hcmem)
      _ = children := List.map_id children

/-- C9 witness: the inverse property applied to a concrete document. -/
theorem c9_indent_inverse_witness :
    (MarkdownDoc.indent
        (MarkdownDoc.indent
          ⟨[Node.header ['a'] 1 none ['#', ' ', 'a', '\n'], Node.paragraph ['x']]⟩ 3) (-3))
      = ⟨[Node.header ['a'] 1 none ['#', ' ', 'a', '\n'], Node.paragraph ['x']]⟩ :=
  c9_indent_inverse ⟨[Node.header ['a'] 1 none ['#', ' ', 'a', '\n'], Node.paragraph ['x']]⟩ 3
    (by decide)

/-- C10: a short read returns the empty string and leaves the parser state
(buffer and offset) unchanged, so later reads and peeks still see the whole
remaining input. -/
theorem c10_read_short (p : Parser) (count : Nat) (h : p.left < count) :
    p.read count = ([], p) := by
  simp [Parser.read, h]

/-- C10 witness: a 5-character read with only 2 characters left. -/
theorem c10_read_short_witness :
    Parser.left ⟨['a', 'b', 'c'], 1⟩ < 5
    ∧ Parser.read ⟨['a', 'b', 'c'], 1⟩ 5 = ([], ⟨['a', 'b', 'c'], 1⟩) :=
  ⟨by decide, c10_read_short ⟨['a', 'b', 'c'], 1⟩ 5 (by decide)⟩

/-- C7 counterexample: the claim's character class deletes the underscore,
but the source keeps it (the deletion regex keeps the word class `\w`, whitespace,
slash and hyphen, and `\w` matches the underscore): on "a_b" the claimed pipeline yields "ab" while `slugify`
yields "a_b". -/
theorem c7_slug_counterexample :
    slug_claimed ['a', '_', 'b'] = ['a', 'b']
    ∧ slugify ['a', '_', 'b'] = ['a', '_', 'b']
    ∧ (['a', '_', 'b'] : List Char) ≠ ['a', 'b'] := by
  refine ⟨by decide, by decide, by decide⟩

/-- The source's kept character class and the amended claim's kept character
class agree on every character. -/
theorem keep_class_eq (c : Char) :
    (is_word_char c || is_regex_space c || c = '/' || c = '-')
      = (c.isAlphanum || c = '_' || is_regex_space c || c = '-' || c = '/') := by
  simp only [is_word_char, Char.isAlphanum, Bool.or_assoc]
  cases c.isAlpha <;> cases c.isDigit <;> cases is_regex_space c
    <;> cases hu : decide (c = '_') <;> cases hs : decide (c = '/')
    <;> cases hh : decide (c = '-') <;> simp

/-- C7 (amended): `slugify` is the pure, deterministic pipeline of the
claim with the kept class corrected to letters, digits, underscores,
whitespace, hyphens and slashes; in particular
`slugify("Hello, World! Café") = "hello-world-cafe"`. -/
theorem c7_slug_amended :
    (∀ s : List Char, slugify s = slug_spec s)
    ∧ slugify "Hello, World! Café".data = "hello-world-cafe".data := by
  constructor
  · intro s
    have hf : ∀ t : List Char,
        t.filter (fun c => is_word_char c || is_regex_space c || c = '/' || c = '-')
          = t.filter (fun c => c.isAlphanum || c = '_' || is_regex_space c || c = '-' || c = '/') :=
      fun t => List.filter_congr (fun c _ => keep_class_eq c)
    simp only [slugify, slug_spec, hf]
  · decide

/-- `takeWhile` over a block that satisfies the predicate followed by a
failing character stops exactly at that character. -/
theorem takeWhile_append_block {p : Char → Bool} {xs : List Char} {y : Char} (ys : List Char)
    (h : ∀ c ∈ xs, p c = true) (hy : p y = false) :
    (xs ++ y :: ys).takeWhile p = xs := by
  induction xs with
  | nil => simp [List.takeWhile, hy]
  | cons a xs ih =>
    have ha : p a = true := h a (by simp)
    simp only [List.cons_append, List.takeWhile_cons, ha]
    rw [ih (fun c hc => h c (by simp [hc]))]
    simp

/-- `dropWhile` over a block that satisfies the predicate followed by a
failing character drops exactly the block. -/
theorem dropWhile_append_block {p : Char → Bool} {xs : List Char} {y : Char} (ys : List Char)
    (h : ∀ c ∈ xs, p c = true) (hy : p y = false) :
    (xs ++ y :: ys).dropWhile p = y :: ys := by
  induction xs with
  | nil => simp [List.dropWhile, hy]
  | cons a xs ih =>
    have ha : p a = true := h a (by simp)
    simp only [List.cons_append, List.dropWhile_cons, ha]
    exact ih (fun c hc => h c (by simp [hc]))

/-- C6: after the reference-link inlining pass (i) no `RefLink` node remains
in the document, (ii) each paragraph's content has been rewritten by the
`re.sub` scan against the document's reference links (the pass is a total
function: it never aborts), and (iii) at any occurrence `[ref]` reached by
the scan — an opening bracket, a nonempty label without closing bracket or
newline, a closing bracket — a label carried by some `RefLink` is rewritten
to `[ref](link.strip())` and a label carried by none is left unchanged with
a "No ref" diagnostic emitted on the side channel. -/
theorem c6_inline_ref_link :
    (∀ d : MarkdownDoc, ((inline_ref_link d).1.children.all (fun n => !n.isRefLink)) = true)
    ∧ (∀ d : MarkdownDoc,
        (inline_ref_link d).1.children
          = (d.children.map (fun c =>
              match c with
              | .paragraph t =>
                Node.paragraph (ref_sub (d.children.filter (fun c => c.isRefLink)) t).1
              | n => n)).filter (fun n => !n.isRefLink))
    ∧ (∀ (links : List Node) (c0 : Char) (mid after : List Char),
        c0 ≠ '\n' → (∀ c ∈ mid, c ≠ ']' ∧ c ≠ '\n') →
        ((∀ link, lookup_ref links (c0 :: mid) = some link →
          ref_sub links ('[' :: c0 :: (mid ++ ']' :: after))
            = (('[' :: c0 :: mid ++ ']' :: '(' :: py_strip link ++ [')'])
                 ++ (ref_sub links after).1,
               Diag.inlined (c0 :: mid)
                   ('[' :: c0 :: mid ++ ']' :: '(' :: py_strip link ++ [')'])
                 :: (ref_sub links after).2))
        ∧ (lookup_ref links (c0 :: mid) = none →
          ref_sub links ('[' :: c0 :: (mid ++ ']' :: after))
            = (('[' :: c0 :: mid ++ [']']) ++ (ref_sub links after).1,
               Diag.no_ref (c0 :: mid) :: (ref_sub links after).2)))) := by
  refine ⟨?_, ?_, ?_⟩
  · intro d
    rw [List.all_eq_true]
    intro n hn
    exact (List.mem_filter.mp hn).2
  · intro d
    unfold inline_ref_link
    simp only [List.map_map]
    congr 1
    apply List.map_congr_left
    intro c _
    cases c with
    | paragraph t =>
      rcases h : ref_sub (d.children.filter (fun c => c.isRefLink)) t with ⟨t1, d1⟩
      simp [h]
    | code ct => rfl
    | whitespace ct => rfl
    | header a b e f => rfl
    | refLink a b e => rfl
  · intro links c0 mid after hc0 hmid
    have hpred : ∀ c ∈ mid, (fun c => c ≠ ']' && c ≠ '\n') c = true := by
      intro c hc
      have := hmid c hc
      simp [this.1, this.2]
    have htake : (mid ++ ']' :: after).takeWhile (fun c => c ≠ ']' && c ≠ '\n') = mid :=
      takeWhile_append_block after hpred (by simp)
    have hdrop : (mid ++ ']' :: after).dropWhile (fun c => c ≠ ']' && c ≠ '\n') = ']' :: after :=
      dropWhile_append_block after hpred (by simp)
    rcases hra : ref_sub links after with ⟨t1, d1⟩
    have htake2 := htake
    simp only [decide_not] at htake2
    constructor
    · intro link hlink
      rw [ref_sub]
      simp only [hc0, if_false, ite_false, decide_not]
      split
      · rename_i after1 h2
        rw [hdrop] at h2
        cases h2
        simp [htake2, hlink, hra]
      · rename_i h2
        rw [hdrop] at h2
        exact absurd rfl (h2 after)
    · intro hnone
      rw [ref_sub]
      simp only [hc0, if_false, ite_false, decide_not]
      split
      · rename_i after1 h2
        rw [hdrop] at h2
        cases h2
        simp [htake2, hnone, hra]
      · rename_i h2
        rw [hdrop] at h2
        exact absurd rfl (h2 after)

/-- C6 witness: the occurrence case applied at a concrete label, link set
and suffix. -/
theorem c6_inline_ref_link_witness :
    ref_sub [Node.refLink ['r'] ['x', ' '] []] ('[' :: 'r' :: ([] ++ ']' :: [' ', 'z']))
      = (('[' :: 'r' :: [] ++ ']' :: '(' :: py_strip ['x', ' '] ++ [')'])
           ++ (ref_sub [Node.refLink ['r'] ['x', ' '] []] [' ', 'z']).1,
         Diag.inlined ('r' :: [])
             ('[' :: 'r' :: [] ++ ']' :: '(' :: py_strip ['x', ' '] ++ [')'])
           :: (ref_sub [Node.refLink ['r'] ['x', ' '] []] [' ', 'z']).2) :=
  (c6_inline_ref_link.2.2 [Node.refLink ['r'] ['x', ' '] []] 'r' [] [' ', 'z']
      (by decide) (by simp)).1 ['x', ' '] (by decide)

/-! ### py_strip lemmas -/

/-- `py_strip` through Mathlib's right-strip. -/
theorem py_strip_eq_rdropWhile (s : List Char) :
    py_strip s = (s.dropWhile is_py_space).rdropWhile is_py_space := rfl

/-- A left strip fixing a cons forces a non-space head. -/
theorem head_not_space_of_dropWhile_fix (c : Char) (t : List Char)
    (h : (c :: t).dropWhile is_py_space = c :: t) : is_py_space c = false := by
  rw [List.dropWhile_eq_self_iff] at h
  simpa using h (by simp)

/-- A list whose elements carry no whitespace is fixed by `py_strip`. -/
theorem py_strip_of_no_space (x : List Char) (h : ∀ c ∈ x, is_py_space c = false) :
    py_strip x = x := by
  rw [py_strip_eq_rdropWhile]
  have h1 : x.dropWhile is_py_space = x := by
    rw [List.dropWhile_eq_self_iff]
    intro hl
    simp only [Bool.not_eq_true]
    exact h _ (List.get_mem x 0 hl)
  rw [h1, List.rdropWhile_eq_self_iff]
  intro hl
  simp only [Bool.not_eq_true]
  exact h _ (List.getLast_mem hl)

/-- `py_strip x = x` forces the left strip alone to fix `x`. -/
theorem dropWhile_eq_self_of_py_strip (x : List Char) (h : py_strip x = x) :
    x.dropWhile is_py_space = x := by
  have hsub : x.dropWhile is_py_space <:+ x := List.dropWhile_suffix _
  apply hsub.eq_of_length
  have h1 : (py_strip x).length ≤ (x.dropWhile is_py_space).length := by
    rw [py_strip_eq_rdropWhile]
    exact (( List.rdropWhile_prefix _ _).length_le)
  have h2 : (x.dropWhile is_py_space).length ≤ x.length := hsub.length_le
  rw [h] at h1
  omega

/-- `py_strip x = x` forces the right strip alone to fix `x`. -/
theorem rdropWhile_eq_self_of_py_strip (x : List Char) (h : py_strip x = x) :
    x.rdropWhile is_py_space = x := by
  have hd := dropWhile_eq_self_of_py_strip x h
  rw [py_strip_eq_rdropWhile, hd] at h
  exact h

/-- `py_strip` is idempotent. -/
theorem py_strip_idem (s : List Char) : py_strip (py_strip s) = py_strip s := by
  rw [py_strip_eq_rdropWhile (py_strip s)]
  have hhead : (py_strip s).dropWhile is_py_space = py_strip s := by
    rcases hp : py_strip s with _ | ⟨c, t⟩
    · rfl
    · have hpre : py_strip s <+: s.dropWhile is_py_space := by
        rw [py_strip_eq_rdropWhile]
        exact List.rdropWhile_prefix _ _
      rw [hp] at hpre
      obtain ⟨t2, ht2⟩ := hpre
      have hfix : (s.dropWhile is_py_space).dropWhile is_py_space
          = s.dropWhile is_py_space := List.dropWhile_idempotent _ _
      rw [← ht2] at hfix
      have hcs : is_py_space c = false := by
        rw [List.cons_append] at hfix
        rw [List.dropWhile_eq_self_iff] at hfix
        simpa using hfix (by simp)
      rw [List.dropWhile_cons, hcs]
      simp
  rw [hhead]
  exact List.rdropWhile_idempotent _ _

/-- `py_strip` only discards elements. -/
theorem py_strip_sublist (s : List Char) : List.Sublist (py_strip s) s := by
  rw [py_strip_eq_rdropWhile]
  exact (( List.rdropWhile_prefix _ _).sublist).trans (( List.dropWhile_suffix _).sublist)

/-- Left whitespace padding is invisible to a left strip. -/
theorem dropWhile_replicate_space (a : Nat) (t : List Char) :
    (List.replicate a ' ' ++ t).dropWhile is_py_space = t.dropWhile is_py_space := by
  induction a with
  | zero => simp
  | succ a ih => simpa [List.replicate_succ, List.dropWhile_cons, is_py_space] using ih

/-- Right whitespace padding is invisible to a right strip. -/
theorem rdropWhile_append_replicate_space (b : Nat) (t : List Char) :
    (t ++ List.replicate b ' ').rdropWhile is_py_space = t.rdropWhile is_py_space := by
  induction b with
  | zero => simp
  | succ b ih =>
    have hrw : t ++ List.replicate (b + 1) ' ' = (t ++ List.replicate b ' ') ++ [' '] := by
      rw [List.replicate_succ' b ' ', ← List.append_assoc]
    rw [hrw, List.rdropWhile_concat_pos _ _ _ (by simp [is_py_space]), ih]

/-- Stripping a space-padded stripped list recovers it. -/
theorem py_strip_pad (a b : Nat) (x : List Char) (hx : py_strip x = x) :
    py_strip (List.replicate a ' ' ++ x ++ List.replicate b ' ') = x := by
  rw [py_strip_eq_rdropWhile, List.append_assoc, dropWhile_replicate_space]
  have hd : x.dropWhile is_py_space = x := dropWhile_eq_self_of_py_strip x hx
  rcases hxe : x with _ | ⟨c, t⟩
  · have hnil : (List.replicate b ' ').dropWhile is_py_space = [] := by
      rw [List.dropWhile_eq_nil_iff]
      intro y hy
      simp [List.eq_of_mem_replicate hy, is_py_space]
    simp [hnil]
  · rw [hxe] at hd
    have hce : is_py_space c = false := head_not_space_of_dropWhile_fix c t hd
    have hdx : ((c :: t) ++ List.replicate b ' ').dropWhile is_py_space
        = (c :: t) ++ List.replicate b ' ' := by
      rw [List.cons_append, List.dropWhile_cons, hce]
      simp
    rw [hdx, rdropWhile_append_replicate_space]
    rw [← hxe] at hd ⊢
    exact rdropWhile_eq_self_of_py_strip x hx

/-! ### split_char lemmas -/

/-- A split is never the empty list of pieces. -/
theorem split_char_ne_nil (sep : Char) (l : List Char) : split_char sep l ≠ [] := by
  induction l with
  | nil => simp [split_char]
  | cons c rest ih =>
    rw [split_char]
    by_cases h : c = sep
    · simp [h]
    · simp only [h, if_false, ite_false]
      rcases hs : split_char sep rest with _ | ⟨hd, tl⟩
      · simp
      · simp

/-- Every character of every piece comes from the split list and differs
from the separator. -/
theorem split_char_piece_spec (sep : Char) (l : List Char) :
    ∀ piece ∈ split_char sep l, ∀ c ∈ piece, c ∈ l ∧ c ≠ sep := by
  induction l with
  | nil =>
    intro piece hp c hc
    simp [split_char] at hp
    subst hp
    simp at hc
  | cons a rest ih =>
    intro piece hp c hc
    rw [split_char] at hp
    by_cases ha : a = sep
    · simp only [ha, if_true, ite_true, List.mem_cons] at hp
      rcases hp with hp | hp
      · subst hp; simp at hc
      · have := ih piece hp c hc
        exact ⟨by simp [this.1], this.2⟩
    · simp only [ha, if_false, ite_false] at hp
      rcases hs : split_char sep rest with _ | ⟨hd, tl⟩
      · exact absurd hs (split_char_ne_nil sep rest)
      · rw [hs, List.mem_cons] at hp
        rcases hp with hp | hp
        · subst hp
          rcases List.mem_cons.mp hc with hc | hc
          · subst hc; exact ⟨by simp, ha⟩
          · have := ih hd (by rw [hs]; simp) c hc
            exact ⟨by simp [this.1], this.2⟩
        · have := ih piece (by rw [hs]; simp [hp]) c hc
          exact ⟨by simp [this.1], this.2⟩

/-- Splitting a separator-free block followed by a separator peels off the
block as the first piece. -/
theorem split_char_append_cons (sep : Char) (xs ys : List Char) (h : sep ∉ xs) :
    split_char sep (xs ++ sep :: ys) = xs :: split_char sep ys := by
  induction xs with
  | nil => simp [split_char]
  | cons a xs ih =>
    have ha : a ≠ sep := by
      intro hcon
      exact h (by simp [hcon])
    rw [List.cons_append, split_char]
    simp only [ha, if_false, ite_false]
    rw [ih (by intro hm; exact h (by simp [hm]))]

/-- Splitting a concatenation of separator-terminated separator-free rows
recovers the rows plus the trailing empty piece. -/
theorem split_char_flatten (sep : Char) (rows : List (List Char))
    (h : ∀ r ∈ rows, sep ∉ r) :
    split_char sep ((rows.map (fun r => r ++ [sep])).flatten) = rows ++ [[]] := by
  induction rows with
  | nil => simp [split_char]
  | cons r rows ih =>
    have hr : sep ∉ r := h r (by simp)
    have hrest := ih (fun r2 h2 => h r2 (by simp [h2]))
    simp only [List.map_cons, List.flatten_cons, List.append_assoc, List.singleton_append]
    rw [split_char_append_cons sep r _ hr, hrest]
    simp

/-! ### Row rendering and reparsing -/

/-- Rendered cells never contain a newline when their cells do not. -/
theorem render_cells_no_newline (w : Nat → Nat) (s : Bool) :
    ∀ (cells : List (List Char)) (j : Nat), (∀ c ∈ cells, '\n' ∉ c) →
    '\n' ∉ render_cells w s j cells := by
  intro cells
  induction cells with
  | nil => intro j _; simp [render_cells]
  | cons c cs ih =>
    intro j h
    rw [render_cells]
    intro hmem
    rcases List.mem_append.mp hmem with hmem | hmem
    · by_cases hs : s = true
      · rw [if_pos hs] at hmem
        have := List.eq_of_mem_replicate hmem
        simp at this
      · rw [if_neg hs] at hmem
        rcases List.mem_cons.mp hmem with hmem | hmem
        · simp at hmem
        · rcases List.mem_append.mp hmem with hmem | hmem
          · rcases List.mem_append.mp hmem with hmem | hmem
            · exact h c (by simp) hmem
            · have := List.eq_of_mem_replicate hmem
              simp at this
          · simp at hmem
    · rcases List.mem_cons.mp hmem with hmem | hmem
      · simp at hmem
      · exact ih (j + 1) (fun c2 h2 => h c2 (by simp [h2])) hmem

/-- Reparsing a rendered ordinary row recovers exactly its cells. -/
theorem reparse_cells_nonsep (w : Nat → Nat) :
    ∀ (cells : List (List Char)) (j : Nat), (∀ c ∈ cells, py_strip c = c ∧ '|' ∉ c) →
    ((split_char '|' (render_cells w false j cells)).dropLast).map py_strip = cells := by
  intro cells
  induction cells with
  | nil => intro j _; simp [render_cells, split_char]
  | cons c cs ih =>
    intro j h
    rw [render_cells]
    simp only [if_neg (Bool.false_ne_true)]
    have hbody : '|' ∉ ' ' :: (c ++ List.replicate (w j - c.length) ' ') ++ [' '] := by
      intro hmem
      rcases List.mem_cons.mp hmem with hmem | hmem
      · simp at hmem
      · rcases List.mem_append.mp hmem with hmem | hmem
        · rcases List.mem_append.mp hmem with hmem | hmem
          · exact (h c (by simp)).2 hmem
          · have := List.eq_of_mem_replicate hmem
            simp at this
        · simp at hmem
    rw [show (' ' :: (c ++ List.replicate (w j - c.length) ' ') ++ [' ']) ++ '|' :: render_cells w false (j + 1) cs
        = (' ' :: ((c ++ List.replicate (w j - c.length) ' ') ++ [' '])) ++ '|' :: render_cells w false (j + 1) cs by simp]
    rw [split_char_append_cons '|' _ _ (by simpa using hbody)]
    rcases hS : split_char '|' (render_cells w false (j + 1) cs) with _ | ⟨s0, S2⟩
    · exact absurd hS (split_char_ne_nil _ _)
    · rw [List.dropLast_cons₂, List.map_cons]
      have hpad : py_strip (' ' :: ((c ++ List.replicate (w j - c.length) ' ') ++ [' '])) = c := by
        have hsh : (' ' :: ((c ++ List.replicate (w j - c.length) ' ') ++ [' ']))
            = List.replicate 1 ' ' ++ c ++ List.replicate (w j - c.length + 1) ' ' := by
          simp [List.replicate_succ']
        rw [hsh]
        exact py_strip_pad 1 _ c (h c (by simp)).1
      rw [hpad]
      have := ih (j + 1) (fun c2 h2 => h c2 (by simp [h2]))
      rw [hS] at this
      rw [this]

/-- Reparsing a rendered separator row yields the dash cells of the column
widths, one per original cell. -/
theorem reparse_cells_sep (w : Nat → Nat) :
    ∀ (cells : List (List Char)) (j : Nat),
    ((split_char '|' (render_cells w true j cells)).dropLast).map py_strip
      = sep_dashes w j cells := by
  intro cells
  induction cells with
  | nil => intro j; simp [render_cells, split_char, sep_dashes]
  | cons c cs ih =>
    intro j
    rw [render_cells]
    rw [if_pos (by trivial : (true = true))]
    have hbody : '|' ∉ List.replicate (w j + 2) '-' := by
      intro hmem
      have := List.eq_of_mem_replicate hmem
      simp at this
    rw [split_char_append_cons '|' _ _ hbody]
    rcases hS : split_char '|' (render_cells w true (j + 1) cs) with _ | ⟨s0, S2⟩
    · exact absurd hS (split_char_ne_nil _ _)
    · rw [List.dropLast_cons₂, List.map_cons]
      have hdash : py_strip (List.replicate (w j + 2) '-') = List.replicate (w j + 2) '-' := by
        apply py_strip_of_no_space
        intro c2 h2
        simp [List.eq_of_mem_replicate h2, is_py_space]
      rw [hdash, sep_dashes]
      have := ih (j + 1)
      rw [hS] at this
      rw [this]

/-! ### Separator rows and widths -/

/-- `sep_dashes` keeps the cell count. -/
theorem sep_dashes_length (w : Nat → Nat) :
    ∀ (cells : List (List Char)) (j : Nat), (sep_dashes w j cells).length = cells.length := by
  intro cells
  induction cells with
  | nil => intro j; rfl
  | cons c cs ih => intro j; simp [sep_dashes, ih (j + 1)]

/-- Every reparsed separator cell is a dash run of some column width. -/
theorem mem_sep_dashes (w : Nat → Nat) :
    ∀ (cells : List (List Char)) (j : Nat) (x : List Char), x ∈ sep_dashes w j cells →
    ∃ k, x = List.replicate (w k + 2) '-' := by
  intro cells
  induction cells with
  | nil => intro j x hx; simp [sep_dashes] at hx
  | cons c cs ih =>
    intro j x hx
    rw [sep_dashes] at hx
    rcases List.mem_cons.mp hx with hx | hx
    · exact ⟨j, hx⟩
    · exact ih (j + 1) x hx

/-- The reparsed separator row is detected as a separator row again. -/
theorem is_sep_row_sep_dashes (w : Nat → Nat) (cells : List (List Char)) (h : cells ≠ []) :
    is_sep_row (sep_dashes w 0 cells) = true := by
  unfold is_sep_row
  have hne : sep_dashes w 0 cells ≠ [] := by
    intro hcon
    have := sep_dashes_length w cells 0
    rw [hcon] at this
    exact h (List.length_eq_zero.mp this.symm)
  rw [Bool.and_eq_true]
  constructor
  · simpa [List.isEmpty_iff] using hne
  · rw [List.all_eq_true]
    intro x hx
    obtain ⟨k, hk⟩ := mem_sep_dashes w cells 0 x hx
    subst hk
    simp [List.isEmpty_iff, List.eq_of_mem_replicate]

/-- Reparsing a rendered row: ordinary rows come back verbatim, the
separator row comes back as dash runs of the column widths. -/
theorem table_cells_render_row (w : Nat → Nat) (cells : List (List Char))
    (hc : ∀ c ∈ cells, py_strip c = c ∧ '|' ∉ c) :
    table_cells (render_row w cells)
      = if is_sep_row cells then sep_dashes w 0 cells else cells := by
  unfold table_cells render_row
  rw [split_char]
  rw [if_pos rfl]
  rw [List.drop_one, List.tail_cons]
  by_cases hsep : is_sep_row cells
  · rw [hsep]
    rw [if_pos (by simp [hsep])]
    exact reparse_cells_sep w cells 0
  · rw [Bool.not_eq_true] at hsep
    rw [hsep]
    rw [if_neg (by simp [hsep])]
    exact reparse_cells_nonsep w cells 0 hc

/-- Every cell produced by `parse_table` is stripped and free of pipes and
newlines. -/
theorem parse_table_invariant (content : List Char) :
    ∀ r ∈ parse_table content, ∀ c ∈ r, py_strip c = c ∧ '|' ∉ c ∧ '\n' ∉ c := by
  unfold parse_table
  intro r hr c hc
  obtain ⟨line, hline, hrc⟩ := List.mem_map.mp hr
  have hline2 : line ∈ split_char '\n' content := (List.mem_filter.mp hline).1
  subst hrc
  unfold table_cells at hc
  obtain ⟨piece, hpiece, hcp⟩ := List.mem_map.mp hc
  have hpiece2 : piece ∈ split_char '|' line := by
    have h1 : piece ∈ (split_char '|' line).drop 1 := List.mem_of_mem_dropLast hpiece
    exact List.drop_subset _ _ h1
  subst hcp
  refine ⟨py_strip_idem piece, ?_, ?_⟩
  · intro hmem
    have hsub := (py_strip_sublist piece).subset hmem
    exact (split_char_piece_spec '|' line piece hpiece2 '|' hsub).2 rfl
  · intro hmem
    have hsub := (py_strip_sublist piece).subset hmem
    have hinline := (split_char_piece_spec '|' line piece hpiece2 '\n' hsub).1
    exact (split_char_piece_spec '\n' content line hline2 '\n' hinline).2 rfl

/-- Reparsing a rendered table transforms each row: ordinary rows survive
verbatim, separator rows become dash runs of the column widths. -/
theorem parse_table_render_table (rows : List (List (List Char)))
    (hinv : ∀ r ∈ rows, ∀ c ∈ r, py_strip c = c ∧ '|' ∉ c ∧ '\n' ∉ c) :
    parse_table (render_table rows)
      = rows.map (fun r => if is_sep_row r then sep_dashes (col_width rows) 0 r else r) := by
  unfold parse_table render_table
  have hmm : (rows.map (fun r => render_row (col_width rows) r ++ ['\n'])).flatten
      = ((rows.map (render_row (col_width rows))).map (fun r => r ++ ['\n'])).flatten := by
    rw [List.map_map]
    rfl
  rw [hmm]
  rw [split_char_flatten '\n' _ (by
    intro r2 hr2
    obtain ⟨r, hr, hrr⟩ := List.mem_map.mp hr2
    subst hrr
    unfold render_row
    intro hmem
    rcases List.mem_cons.mp hmem with hmem | hmem
    · simp at hmem
    · exact render_cells_no_newline (col_width rows) _ r 0
        (fun c hcr => (hinv r hr c hcr).2.2) hmem)]
  rw [List.filter_append]
  have hemp : List.filter (fun l => !l.isEmpty) [([] : List Char)] = [] := by simp
  rw [hemp, List.append_nil]
  have hkeep : List.filter (fun l => !l.isEmpty) (rows.map (render_row (col_width rows)))
      = rows.map (render_row (col_width rows)) := by
    rw [List.filter_eq_self]
    intro r2 hr2
    obtain ⟨r, hr, hrr⟩ := List.mem_map.mp hr2
    subst hrr
    unfold render_row
    simp
  rw [hkeep, List.map_map]
  apply List.map_congr_left
  intro r hr
  exact table_cells_render_row (col_width rows) r (fun c hcr =>
    ⟨(hinv r hr c hcr).1, (hinv r hr c hcr).2.1⟩)

/-- The row transform of reparsing preserves separator detection. -/
theorem is_sep_row_transform (w : Nat → Nat) (r : List (List Char)) :
    is_sep_row (if is_sep_row r then sep_dashes w 0 r else r) = is_sep_row r := by
  by_cases h : is_sep_row r
  · rw [if_pos h, h]
    apply is_sep_row_sep_dashes
    intro hcon
    rw [hcon] at h
    simp [is_sep_row] at h
  · simp [h]

/-- A per-row transform that fixes ordinary rows and preserves separator
detection leaves the ordinary-row sublist unchanged. -/
theorem filter_nonsep_map (rows : List (List (List Char)))
    (f : List (List Char) → List (List Char))
    (hf : ∀ r ∈ rows, is_sep_row (f r) = is_sep_row r ∧ (is_sep_row r = false → f r = r)) :
    (rows.map f).filter (fun r => !is_sep_row r) = rows.filter (fun r => !is_sep_row r) := by
  rw [List.filter_map]
  have hcong : rows.filter ((fun r => !is_sep_row r) ∘ f)
      = rows.filter (fun r => !is_sep_row r) := by
    apply List.filter_congr
    intro r hr
    simp only [Function.comp_apply]
    rw [(hf r hr).1]
  rw [hcong]
  calc (rows.filter (fun r => !is_sep_row r)).map f
      = (rows.filter (fun r => !is_sep_row r)).map id := by
        apply List.map_congr_left
        intro r hr
        have hmem := List.mem_filter.mp hr
        exact (hf r hmem.1).2 (by simpa using hmem.2)
    _ = rows.filter (fun r => !is_sep_row r) := List.map_id _

/-- Column widths only depend on the ordinary-row sublist. -/
theorem col_width_congr (rows rows2 : List (List (List Char)))
    (h : rows.filter (fun r => !is_sep_row r) = rows2.filter (fun r => !is_sep_row r)) :
    col_width rows = col_width rows2 := by
  funext j
  unfold col_width
  rw [h]

/-- The row transform of reparsing does not change the column widths. -/
theorem col_width_transform (rows : List (List (List Char))) :
    col_width (rows.map (fun r => if is_sep_row r then sep_dashes (col_width rows) 0 r else r))
      = col_width rows := by
  apply col_width_congr
  apply filter_nonsep_map
  intro r hr
  constructor
  · exact is_sep_row_transform (col_width rows) r
  · intro hns
    rw [if_neg (by simp [hns])]

/-- Separator-row rendering depends only on the number of cells. -/
theorem render_cells_sep_congr (w : Nat → Nat) :
    ∀ (cells cells2 : List (List Char)) (j : Nat), cells.length = cells2.length →
    render_cells w true j cells = render_cells w true j cells2 := by
  intro cells
  induction cells with
  | nil =>
    intro cells2 j h
    rw [List.length_nil] at h
    rw [List.length_eq_zero.mp h.symm]
  | cons c cs ih =>
    intro cells2 j h
    rcases cells2 with _ | ⟨c2, cs2⟩
    · simp at h
    · rw [render_cells, render_cells]
      rw [if_pos rfl, if_pos rfl]
      simp only [List.length_cons, Nat.succ.injEq] at h
      rw [ih cs2 (j + 1) h]

/-- Rendering is unchanged by the reparse row transform. -/
theorem render_table_transform (rows : List (List (List Char))) :
    render_table (rows.map (fun r => if is_sep_row r then sep_dashes (col_width rows) 0 r else r))
      = render_table rows := by
  unfold render_table
  rw [col_width_transform, List.map_map]
  congr 1
  apply List.map_congr_left
  intro r hr
  simp only [Function.comp_apply]
  congr 1
  by_cases h : is_sep_row r
  · rw [if_pos h]
    have hne : r ≠ [] := by
      intro hcon
      rw [hcon] at h
      simp [is_sep_row] at h
    unfold render_row
    rw [is_sep_row_sep_dashes _ _ hne, h]
    congr 1
    exact render_cells_sep_congr (col_width rows) _ r 0 (sep_dashes_length _ r 0)
  · rw [if_neg h]

/-- C5: reformatting a Table is idempotent — the second pass reparses
exactly the stripped cells the first pass laid out, recomputes the same
column widths and renders the same text. -/
theorem c5_table_reformat_idempotent (t : Table) :
    t.reformat.reformat = t.reformat := by
  unfold Table.reformat
  simp only [Table.mk.injEq]
  rw [parse_table_render_table _ (parse_table_invariant t.content)]
  exact render_table_transform _

/-- The reformat model reproduces the `test_normalize_table` unit test of
markdown.test.py byte for byte. -/
theorem table_reformat_unit_test :
    Table.reformat ⟨("| a | b | c|\n|---|---|--|\n| aaaaa | bbbbb | cccc |\n| dd | ee | f |").data⟩
      = ⟨("| a     | b     | c    |\n|-------|-------|------|\n| aaaaa | bbbbb | cccc |\n| dd    | ee    | f    |\n").data⟩ := by
  decide

/-! ### Parser state lemmas for the round-trip theorem -/

/-- An empty slice. -/
theorem slice_between_self (p : Parser) : slice_between p p = [] := by
  simp [slice_between]

/-- Consecutive slices concatenate. -/
theorem slice_between_trans (p p1 p2 : Parser)
    (hb1 : p1.buffer = p.buffer) (hb2 : p2.buffer = p.buffer)
    (h1 : p.offset ≤ p1.offset) (h2 : p1.offset ≤ p2.offset) :
    slice_between p p2 = slice_between p p1 ++ slice_between p1 p2 := by
  unfold slice_between
  rw [hb1]
  have hsum : p2.offset - p.offset = (p1.offset - p.offset) + (p2.offset - p1.offset) := by
    omega
  rw [hsum, List.take_add]
  have hd : List.drop (p1.offset - p.offset) (List.drop p.offset p.buffer)
      = List.drop p1.offset p.buffer := by
    rw [List.drop_drop]
    congr 1
    omega
  rw [hd]

/-- A prefix is recovered by taking its own length. -/
theorem take_length_of_leading {l t : List Char} (h : l <+: t) : t.take l.length = l := by
  obtain ⟨r, rfl⟩ := h
  exact List.take_left l r

/-- `read_while` consumes exactly the text it returns. -/
theorem read_while_spec (p : Parser) (f : Char → Bool) :
    (p.read_while f).1 = (p.buffer.drop p.offset).takeWhile f
    ∧ (p.read_while f).2.buffer = p.buffer
    ∧ (p.read_while f).2.offset = p.offset + ((p.buffer.drop p.offset).takeWhile f).length
    ∧ (p.read_while f).1 = slice_between p (p.read_while f).2 := by
  refine ⟨rfl, rfl, rfl, ?_⟩
  unfold Parser.read_while slice_between
  simp only
  rw [Nat.add_sub_cancel_left]
  exact (take_length_of_leading ( List.takeWhile_prefix f)).symm

/-- `read_while` keeps the offset inside the buffer. -/
theorem read_while_le (p : Parser) (f : Char → Bool) (h : p.offset ≤ p.buffer.length) :
    (p.read_while f).2.offset ≤ p.buffer.length := by
  have hl : ((p.buffer.drop p.offset).takeWhile f).length ≤ p.buffer.length - p.offset := by
    calc ((p.buffer.drop p.offset).takeWhile f).length
        ≤ (p.buffer.drop p.offset).length := ( List.takeWhile_prefix f).length_le
      _ = p.buffer.length - p.offset := by rw [List.length_drop]
  have := (read_while_spec p f).2.2.1
  omega

/-- A successful `read` consumes exactly the text it returns. -/
theorem read_spec (p : Parser) (count : Nat) (h : count ≤ p.left) :
    (p.read count).1 = (p.buffer.drop p.offset).take count
    ∧ (p.read count).2.buffer = p.buffer
    ∧ (p.read count).2.offset = p.offset + count
    ∧ (p.read count).1 = slice_between p (p.read count).2 := by
  unfold Parser.read
  rw [if_neg (by omega)]
  refine ⟨rfl, rfl, rfl, ?_⟩
  unfold slice_between
  simp only
  rw [Nat.add_sub_cancel_left]

/-- `peek 1` is nonempty exactly when at least one character is left. -/
theorem peek_one_ne_nil_iff (p : Parser) : p.peek 1 ≠ [] ↔ 1 ≤ p.left := by
  unfold Parser.peek
  constructor
  · intro h
    by_contra hc
    rw [if_pos (by omega)] at h
    exact h rfl
  · intro h
    rw [if_neg (by omega)]
    have hlen : (p.buffer.drop p.offset).length = p.left := by
      unfold Parser.left
      rw [List.length_drop]
    intro hc
    have := congrArg List.length hc
    rw [List.length_take, hlen] at this
    simp at this
    omega

/-- What `peek 1` sees is the head of the remaining buffer. -/
theorem peek_one_eq (p : Parser) (h : 1 ≤ p.left) :
    p.peek 1 = (p.buffer.drop p.offset).take 1 := by
  unfold Parser.peek
  rw [if_neg (by omega)]

/-- Any `read` keeps the buffer and moves the offset forward, staying inside
the buffer. -/
theorem read_le (p : Parser) (count : Nat) (h : p.offset ≤ p.buffer.length) :
    (p.read count).2.buffer = p.buffer
    ∧ p.offset ≤ (p.read count).2.offset
    ∧ (p.read count).2.offset ≤ p.buffer.length := by
  unfold Parser.read
  by_cases hc : p.left < count
  · rw [if_pos hc]
    exact ⟨rfl, Nat.le_refl _, h⟩
  · rw [if_neg hc]
    refine ⟨rfl, by simp, ?_⟩
    unfold Parser.left at hc
    simp only
    omega

/-- A nonempty run is consumed when the head satisfies the predicate. -/
theorem takeWhile_head_pos (f : Char → Bool) (c : Char) (rest : List Char) (hf : f c = true) :
    1 ≤ ((c :: rest).takeWhile f).length := by
  rw [List.takeWhile_cons, if_pos hf]
  simp

/-- All the facts about one `read_while` call, in destructured form. -/
theorem read_while_dest (p : Parser) (f : Char → Bool) (s : List Char) (q : Parser)
    (h : p.read_while f = (s, q)) :
    q.buffer = p.buffer
    ∧ q.offset = p.offset + s.length
    ∧ s = (p.buffer.drop p.offset).takeWhile f
    ∧ s = slice_between p q
    ∧ (p.offset ≤ p.buffer.length → q.offset ≤ p.buffer.length) := by
  obtain ⟨h1, h2, h3, h4⟩ := read_while_spec p f
  rw [h] at h1 h2 h3 h4
  simp only at h1 h2 h3 h4
  refine ⟨h2, by rw [h3, h1], h1, h4, ?_⟩
  intro hle
  have := read_while_le p f hle
  rw [h] at this
  exact this

/-- All the facts about one `read` call, in destructured form. -/
theorem read_dest (p : Parser) (count : Nat) (s : List Char) (q : Parser)
    (h : p.read count = (s, q)) :
    q.buffer = p.buffer
    ∧ p.offset ≤ q.offset
    ∧ (p.offset ≤ p.buffer.length → q.offset ≤ p.buffer.length)
    ∧ (count ≤ p.left → s = slice_between p q ∧ q.offset = p.offset + count) := by
  constructor
  · unfold Parser.read at h
    by_cases hc : p.left < count
    · rw [if_pos hc] at h
      cases h
      rfl
    · rw [if_neg hc] at h
      cases h
      rfl
  · unfold Parser.read at h
    by_cases hc : p.left < count
    · rw [if_pos hc] at h
      cases h
      exact ⟨Nat.le_refl _, fun hle => hle, fun hcount => absurd hcount (by omega)⟩
    · rw [if_neg hc] at h
      cases h
      refine ⟨by simp, ?_, ?_⟩
      · intro hle
        simp only
        unfold Parser.left at hc
        omega
      · intro _
        refine ⟨?_, rfl⟩
        unfold slice_between
        simp only
        rw [Nat.add_sub_cancel_left]

/-- `parse_whitespace`: the node's content is exactly the consumed slice, and
a whitespace head guarantees progress. -/
theorem parse_whitespace_spec (p : Parser) (h : p.offset ≤ p.buffer.length) :
    ∀ node q, parse_whitespace p = (node, q) →
    q.buffer = p.buffer
    ∧ p.offset ≤ q.offset
    ∧ q.offset ≤ p.buffer.length
    ∧ node.content = slice_between p q
    ∧ (∀ c rest, p.buffer.drop p.offset = c :: rest → is_whitespace c = true →
        p.offset < q.offset) := by
  intro node q hpq
  unfold parse_whitespace at hpq
  rcases h1 : p.read_while is_whitespace with ⟨s, q1⟩
  rw [h1] at hpq
  simp only at hpq
  cases hpq
  obtain ⟨hb, ho, hs, hsl, hle⟩ := read_while_dest p is_whitespace s q h1
  refine ⟨hb, by omega, hle h, hsl, ?_⟩
  intro c rest hdrop hws
  have := takeWhile_head_pos is_whitespace c rest hws
  rw [← hdrop] at this
  rw [← hs] at this
  omega

/-- `parse_header`: buffer preserved, offset bounded, and a hash head
guarantees progress (the content is regenerated, not the consumed slice). -/
theorem parse_header_spec (p : Parser) (h : p.offset ≤ p.buffer.length) :
    ∀ node q, parse_header p = (node, q) →
    q.buffer = p.buffer
    ∧ p.offset ≤ q.offset
    ∧ q.offset ≤ p.buffer.length
    ∧ (∀ c rest, p.buffer.drop p.offset = c :: rest → c = '#' →
        p.offset < q.offset) := by
  intro node q hpq
  unfold parse_header at hpq
  rcases h1 : p.read_while (fun it => it = '#') with ⟨hashes, p1⟩
  rcases h2 : p1.read_while (fun it => is_whitespace it) with ⟨ws, p2⟩
  rcases h3 : p2.read_while (fun it => it ≠ '\n') with ⟨title, p3⟩
  rcases h4 : p3.read 1 with ⟨nl, p4⟩
  rw [h1] at hpq
  simp only at hpq
  rw [h2] at hpq
  simp only at hpq
  rw [h3] at hpq
  simp only at hpq
  rw [h4] at hpq
  simp only at hpq
  cases hpq
  obtain ⟨b1, o1, t1, _, le1⟩ := read_while_dest p _ hashes p1 h1
  obtain ⟨b2, o2, t2, _, le2⟩ := read_while_dest p1 _ ws p2 h2
  obtain ⟨b3, o3, t3, _, le3⟩ := read_while_dest p2 _ title p3 h3
  obtain ⟨b4, o4, le4, _⟩ := read_dest p3 1 nl q h4
  have hl1 : p1.offset ≤ p.buffer.length := le1 h
  have hl2 : p2.offset ≤ p.buffer.length := by rw [← b1]; exact le2 (by rw [b1]; exact hl1)
  have hl3 : p3.offset ≤ p.buffer.length := by rw [← b1, ← b2]; exact le3 (by rw [b2, b1]; exact hl2)
  have hl4 : q.offset ≤ p.buffer.length := by
    rw [← b1, ← b2, ← b3]
    exact le4 (by rw [b3, b2, b1]; exact hl3)
  refine ⟨by rw [b4, b3, b2, b1], by omega, hl4, ?_⟩
  intro c rest hdrop hc
  have := takeWhile_head_pos (fun it => it = '#') c rest (by simp [hc])
  rw [← hdrop, ← t1] at this
  omega

/-- `parse_ref_link`: on success the buffer is preserved, the offset stays
inside the buffer, and a bracket head guarantees progress. -/
theorem parse_ref_link_spec (p : Parser) (h : p.offset ≤ p.buffer.length) :
    ∀ node q, parse_ref_link p = some (node, q) →
    q.buffer = p.buffer
    ∧ p.offset ≤ q.offset
    ∧ q.offset ≤ p.buffer.length
    ∧ (∀ c rest, p.buffer.drop p.offset = c :: rest → c = '[' →
        p.offset < q.offset) := by
  intro node q hpq
  unfold parse_ref_link at hpq
  rcases h1 : p.read_while (fun it => it ≠ '\n') with ⟨line, p1⟩
  rcases h2 : p1.read 1 with ⟨nl, p2⟩
  rw [h1] at hpq
  simp only at hpq
  rw [h2] at hpq
  simp only at hpq
  rcases hex : ref_link_extract line with _ | ⟨ref, link⟩
  · rw [hex] at hpq
    simp at hpq
  · rw [hex] at hpq
    simp only [Option.some.injEq, Prod.mk.injEq] at hpq
    obtain ⟨b1, o1, t1, _, le1⟩ := read_while_dest p _ line p1 h1
    obtain ⟨b2, o2, le2, _⟩ := read_dest p1 1 nl p2 h2
    have hq : q = p2 := hpq.2.symm
    subst hq
    have hl1 : p1.offset ≤ p.buffer.length := le1 h
    have hl2 : q.offset ≤ p.buffer.length := by
      rw [← b1]
      exact le2 (by rw [b1]; exact hl1)
    refine ⟨by rw [b2, b1], by omega, hl2, ?_⟩
    intro c rest hdrop hc
    have := takeWhile_head_pos (fun it => it ≠ '\n') c rest (by simp [hc])
    rw [← hdrop, ← t1] at this
    omega

/-- The `parse_code` loop accumulates exactly the consumed slice. -/
theorem parse_code_go_spec (separator : List Char) :
    ∀ (fuel : Nat) (content : List Char) (p : Parser), p.offset ≤ p.buffer.length →
    ∀ node q, parse_code_go fuel separator content p = (node, q) →
    q.buffer = p.buffer
    ∧ p.offset ≤ q.offset
    ∧ q.offset ≤ p.buffer.length
    ∧ node = .code (content ++ slice_between p q) := by
  intro fuel
  induction fuel with
  | zero =>
    intro content p h node q hpq
    rw [parse_code_go] at hpq
    cases hpq
    exact ⟨rfl, Nat.le_refl _, h, by rw [slice_between_self, List.append_nil]⟩
  | succ fuel ih =>
    intro content p h node q hpq
    rw [parse_code_go] at hpq
    by_cases hpk : p.peek 1 = []
    · rw [if_pos hpk] at hpq
      cases hpq
      exact ⟨rfl, Nat.le_refl _, h, by rw [slice_between_self, List.append_nil]⟩
    · rw [if_neg hpk] at hpq
      have hleft : 1 ≤ p.left := (peek_one_ne_nil_iff p).mp hpk
      by_cases hsep : p.peek 3 = separator
      · rw [if_pos hsep] at hpq
        rcases h3 : p.read 3 with ⟨s, p1⟩
        rw [h3] at hpq
        simp only at hpq
        cases hpq
        obtain ⟨b1, o1, le1, hs⟩ := read_dest p 3 s q h3
        by_cases h3le : 3 ≤ p.left
        · obtain ⟨hsl, _⟩ := hs h3le
          exact ⟨b1, o1, le1 h, by rw [hsl]⟩
        · have : p.read 3 = ([], p) := by
            unfold Parser.read
            rw [if_pos (by omega)]
          rw [this] at h3
          cases h3
          exact ⟨rfl, Nat.le_refl _, h, by rw [slice_between_self, List.append_nil]⟩
      · rw [if_neg hsep] at hpq
        rcases h1 : p.read 1 with ⟨s, p1⟩
        rw [h1] at hpq
        simp only at hpq
        obtain ⟨b1, o1, le1, hs⟩ := read_dest p 1 s p1 h1
        obtain ⟨hsl, ho1⟩ := hs hleft
        obtain ⟨ib, io, ile, inode⟩ := ih (content ++ s) p1 (by rw [b1]; exact le1 h) node q hpq
        refine ⟨by rw [ib, b1], by omega, by rw [← b1]; exact ile, ?_⟩
        rw [inode, hsl, List.append_assoc]
        congr 2
        exact (slice_between_trans p p1 q b1 (by rw [ib, b1]) (by omega) io).symm

/-- `parse_code`: when the dispatcher's fence guard held, the node's content
is exactly the consumed slice and at least the fence was consumed. -/
theorem parse_code_spec (p : Parser) (h : p.offset ≤ p.buffer.length) (h3 : 3 ≤ p.left) :
    ∀ node q, parse_code p = (node, q) →
    q.buffer = p.buffer
    ∧ p.offset < q.offset
    ∧ q.offset ≤ p.buffer.length
    ∧ node.content = slice_between p q := by
  intro node q hpq
  unfold parse_code at hpq
  rcases hr : p.read 3 with ⟨sep, p1⟩
  rw [hr] at hpq
  simp only at hpq
  obtain ⟨b1, o1, le1, hs⟩ := read_dest p 3 sep p1 hr
  obtain ⟨hsl, ho1⟩ := hs h3
  obtain ⟨gb, go, gle, gnode⟩ := parse_code_go_spec sep p1.left sep p1 (by rw [b1]; exact le1 h) node q hpq
  refine ⟨by rw [gb, b1], by omega, by rw [← b1]; exact gle, ?_⟩
  rw [gnode]
  show sep ++ slice_between p1 q = slice_between p q
  rw [hsl]
  exact (slice_between_trans p p1 q b1 (by rw [gb, b1]) (by omega) go).symm

/-- The `parse_paragraph` loop accumulates exactly the consumed slice and
makes progress whenever fuel and input remain. -/
theorem parse_paragraph_go_spec :
    ∀ (fuel : Nat) (content : List Char) (p : Parser), p.offset ≤ p.buffer.length →
    ∀ node q, parse_paragraph_go fuel content p = (node, q) →
    q.buffer = p.buffer
    ∧ p.offset ≤ q.offset
    ∧ q.offset ≤ p.buffer.length
    ∧ node = .paragraph (content ++ slice_between p q)
    ∧ (1 ≤ fuel → p.peek 1 ≠ [] → p.offset < q.offset) := by
  intro fuel
  induction fuel with
  | zero =>
    intro content p h node q hpq
    rw [parse_paragraph_go] at hpq
    cases hpq
    refine ⟨rfl, Nat.le_refl _, h, by rw [slice_between_self, List.append_nil], ?_⟩
    intro hf
    omega
  | succ fuel ih =>
    intro content p h node q hpq
    rw [parse_paragraph_go] at hpq
    by_cases hpk : p.peek 1 = []
    · rw [if_pos hpk] at hpq
      cases hpq
      refine ⟨rfl, Nat.le_refl _, h, by rw [slice_between_self, List.append_nil], ?_⟩
      intro _ hne
      exact absurd hpk hne
    · rw [if_neg hpk] at hpq
      have hleft : 1 ≤ p.left := (peek_one_ne_nil_iff p).mp hpk
      rcases h1 : p.read 1 with ⟨s, p1⟩
      obtain ⟨b1, o1, le1, hs⟩ := read_dest p 1 s p1 h1
      obtain ⟨hsl, ho1⟩ := hs hleft
      by_cases hnl : p.peek 1 = ['\n']
      · rw [if_pos hnl] at hpq
        rw [h1] at hpq
        simp only at hpq
        by_cases hbl : is_blank (p1.peek_while (fun it => it ≠ '\n')) = true
        · rw [if_pos hbl] at hpq
          cases hpq
          exact ⟨b1, by omega, le1 h, by rw [hsl], fun _ _ => by omega⟩
        · rw [if_neg hbl] at hpq
          obtain ⟨ib, io, ile, inode, _⟩ := ih (content ++ s) p1 (by rw [b1]; exact le1 h) node q hpq
          refine ⟨by rw [ib, b1], by omega, by rw [← b1]; exact ile, ?_, fun _ _ => by omega⟩
          rw [inode, hsl, List.append_assoc]
          congr 2
          exact (slice_between_trans p p1 q b1 (by rw [ib, b1]) (by omega) io).symm
      · rw [if_neg hnl] at hpq
        rw [h1] at hpq
        simp only at hpq
        obtain ⟨ib, io, ile, inode, _⟩ := ih (content ++ s) p1 (by rw [b1]; exact le1 h) node q hpq
        refine ⟨by rw [ib, b1], by omega, by rw [← b1]; exact ile, ?_, fun _ _ => by omega⟩
        rw [inode, hsl, List.append_assoc]
        congr 2
        exact (slice_between_trans p p1 q b1 (by rw [ib, b1]) (by omega) io).symm

/-- `parse_paragraph`: the node's content is exactly the consumed slice, with
progress on nonempty input. -/
theorem parse_paragraph_spec (p : Parser) (h : p.offset ≤ p.buffer.length)
    (hne : p.peek 1 ≠ []) :
    ∀ node q, parse_paragraph p = (node, q) →
    q.buffer = p.buffer
    ∧ p.offset < q.offset
    ∧ q.offset ≤ p.buffer.length
    ∧ node.content = slice_between p q := by
  intro node q hpq
  unfold parse_paragraph at hpq
  have hleft : 1 ≤ p.left := (peek_one_ne_nil_iff p).mp hne
  obtain ⟨b, o, le, hnode, hprog⟩ := parse_paragraph_go_spec p.left [] p h node q hpq
  exact ⟨b, hprog (by omega) hne, le, by rw [hnode, List.nil_append]; rfl⟩

/-- A nonempty one-character take exposes the head. -/
theorem take_one_eq_cons {d : List Char} {c : Char} {t : List Char} (h : d.take 1 = c :: t) :
    ∃ rest, d = c :: rest := by
  rcases d with _ | ⟨a, d2⟩
  · simp at h
  · refine ⟨d2, ?_⟩
    simp only [List.take_succ_cons, List.take_zero] at h
    rw [(List.cons.injEq _ _ _ _).mp h |>.1]

/-- A nonempty peek needs that many characters left. -/
theorem peek_ne_nil_le (p : Parser) (count : Nat) (h : p.peek count ≠ []) :
    count ≤ p.left := by
  unfold Parser.peek at h
  by_cases hc : p.left < count
  · rw [if_pos hc] at h
    exact absurd rfl h
  · omega

/-- `parse_header` always emits a header node. -/
theorem parse_header_fst (p : Parser) :
    ∀ node q, parse_header p = (node, q) → node.isHeader = true := by
  intro node q hpq
  unfold parse_header at hpq
  rcases h1 : p.read_while (fun it => it = '#') with ⟨hashes, p1⟩
  rw [h1] at hpq
  simp only at hpq
  rcases h2 : p1.read_while (fun it => is_whitespace it) with ⟨ws, p2⟩
  rw [h2] at hpq
  simp only at hpq
  rcases h3 : p2.read_while (fun it => it ≠ '\n') with ⟨title, p3⟩
  rw [h3] at hpq
  simp only at hpq
  rcases h4 : p3.read 1 with ⟨nl, p4⟩
  rw [h4] at hpq
  simp only at hpq
  cases hpq
  rfl

/-- `parse_ref_link` emits reference-link nodes only. -/
theorem parse_ref_link_fst (p : Parser) :
    ∀ node q, parse_ref_link p = some (node, q) → node.isRefLink = true := by
  intro node q hpq
  unfold parse_ref_link at hpq
  rcases h1 : p.read_while (fun it => it ≠ '\n') with ⟨line, p1⟩
  rw [h1] at hpq
  simp only at hpq
  rcases h2 : p1.read 1 with ⟨nl, p2⟩
  rw [h2] at hpq
  simp only at hpq
  rcases hex : ref_link_extract line with _ | ⟨ref, link⟩
  · rw [hex] at hpq
    simp at hpq
  · rw [hex] at hpq
    simp only [Option.some.injEq, Prod.mk.injEq] at hpq
    rw [← hpq.1]
    rfl

/-- One dispatcher step: the buffer is preserved, the offset strictly
advances while staying inside the buffer, and every step that emits a
whitespace, code or paragraph node carries exactly the consumed slice as its
content. -/
theorem parse_markdown_step_spec (p : Parser) (h : p.offset ≤ p.buffer.length) :
    ∀ node q, parse_markdown_step p = some (node, q) →
    q.buffer = p.buffer
    ∧ p.offset < q.offset
    ∧ q.offset ≤ p.buffer.length
    ∧ (node.isHeader = false → node.isRefLink = false →
        node.content = slice_between p q) := by
  intro node q hpq
  unfold parse_markdown_step at hpq
  rcases hpk : p.peek 1 with _ | ⟨c, crest⟩
  · rw [hpk] at hpq
    simp at hpq
  · rw [hpk] at hpq
    simp only at hpq
    have hne : p.peek 1 ≠ [] := by rw [hpk]; simp
    have hleft : 1 ≤ p.left := (peek_one_ne_nil_iff p).mp hne
    have hpeek := peek_one_eq p hleft
    rw [hpk] at hpeek
    obtain ⟨rest, hdrop⟩ := take_one_eq_cons hpeek.symm
    by_cases hws : is_whitespace c = true
    · rw [if_pos hws] at hpq
      have hp : parse_whitespace p = (node, q) := Option.some.inj hpq
      obtain ⟨b, o, le, hcont, hprog⟩ := parse_whitespace_spec p h node q hp
      exact ⟨b, hprog c rest hdrop hws, le, fun _ _ => hcont⟩
    · rw [if_neg hws] at hpq
      by_cases hcode : ((c = '-' || c = '~' || c = '\x60')
          && (p.peek 3 = ['-', '-', '-'] || p.peek 3 = ['~', '~', '~']
              || p.peek 3 = ['\x60', '\x60', '\x60'])) = true
      · rw [if_pos hcode] at hpq
        have hp : parse_code p = (node, q) := Option.some.inj hpq
        have h3 : 3 ≤ p.left := by
          apply peek_ne_nil_le
          rcases Bool.and_eq_true_iff.mp hcode with ⟨_, hfence⟩
          rcases Bool.or_eq_true_iff.mp hfence with hf | hf
          · rcases Bool.or_eq_true_iff.mp hf with hf2 | hf2
            all_goals
              have := of_decide_eq_true hf2
              rw [this]
              simp
          · have := of_decide_eq_true hf
            rw [this]
            simp
        obtain ⟨b, o, le, hcont⟩ := parse_code_spec p h h3 node q hp
        exact ⟨b, o, le, fun _ _ => hcont⟩
      · rw [if_neg hcode] at hpq
        by_cases hhash : c = '#'
        · rw [if_pos hhash] at hpq
          have hp : parse_header p = (node, q) := Option.some.inj hpq
          obtain ⟨b, o, le, hprog⟩ := parse_header_spec p h node q hp
          refine ⟨b, hprog c rest hdrop hhash, le, ?_⟩
          intro hH _
          rw [parse_header_fst p node q hp] at hH
          cases hH
        · rw [if_neg hhash] at hpq
          by_cases hguard : (c = '[' && ref_link_guard (p.peek_while (fun it => it ≠ '\n'))) = true
          · rw [if_pos hguard] at hpq
            obtain ⟨b, o, le, hprog⟩ := parse_ref_link_spec p h node q hpq
            rcases Bool.and_eq_true_iff.mp hguard with ⟨hbr, _⟩
            refine ⟨b, hprog c rest hdrop (of_decide_eq_true hbr), le, ?_⟩
            intro _ hR
            rw [parse_ref_link_fst p node q hpq] at hR
            cases hR
          · rw [if_neg hguard] at hpq
            have hp : parse_paragraph p = (node, q) := Option.some.inj hpq
            obtain ⟨b, o, le, hcont⟩ := parse_paragraph_spec p h hne node q hp
            exact ⟨b, o, le, fun _ _ => hcont⟩

/-- A consumed slice followed by the rest of the buffer is the whole rest. -/
theorem slice_append_drop (b : List Char) (o o1 : Nat) (h : o ≤ o1) :
    (b.drop o).take (o1 - o) ++ b.drop o1 = b.drop o := by
  have hsplit := List.take_append_drop (o1 - o) (b.drop o)
  rw [List.drop_drop] at hsplit
  rw [show o + (o1 - o) = o1 by omega] at hsplit
  exact hsplit

/-- The tokenizer loop: with enough fuel and every header/reference-link
step exact, it succeeds and emits nodes whose concatenated contents are
exactly the remaining buffer. -/
theorem parse_markdown_go_spec :
    ∀ (fuel : Nat) (p : Parser) (acc : List Node),
    p.offset ≤ p.buffer.length → p.left ≤ fuel →
    parse_markdown_steps_exact fuel p = true →
    ∃ ns, parse_markdown_go fuel p acc = some (acc ++ ns)
      ∧ contents ns = p.buffer.drop p.offset := by
  intro fuel
  induction fuel with
  | zero =>
    intro p acc h hf _
    refine ⟨[], by rw [parse_markdown_go, List.append_nil], ?_⟩
    unfold Parser.left at hf
    rw [List.drop_eq_nil_of_le (by omega)]
    rfl
  | succ fuel ih =>
    intro p acc h hf hex
    rw [parse_markdown_steps_exact] at hex
    rw [parse_markdown_go]
    by_cases hpk : p.peek 1 = []
    · rw [if_pos hpk]
      refine ⟨[], by rw [List.append_nil], ?_⟩
      have hz : ¬1 ≤ p.left := fun hcon => ((peek_one_ne_nil_iff p).mpr hcon) hpk
      unfold Parser.left at hz
      rw [List.drop_eq_nil_of_le (by omega)]
      rfl
    · rw [if_neg hpk]
      rw [if_neg hpk] at hex
      rcases hstep : parse_markdown_step p with _ | ⟨node, p1⟩
      · rw [hstep] at hex
        simp at hex
      · rw [hstep] at hex
        rw [Bool.and_eq_true] at hex
        obtain ⟨b, o, le, hcont⟩ := parse_markdown_step_spec p h node p1 hstep
        have h1 : p1.offset ≤ p1.buffer.length := by rw [b]; exact le
        have hleft1 : p1.left ≤ fuel := by
          unfold Parser.left at hf ⊢
          rw [b]
          omega
        obtain ⟨ns, hgo, hcontents⟩ := ih p1 (acc ++ [node]) h1 hleft1 hex.2
        refine ⟨node :: ns, ?_, ?_⟩
        · show parse_markdown_go fuel p1 (acc ++ [node]) = some (acc ++ node :: ns)
          rw [hgo]
          congr 1
          simp
        · have hnc : node.content = slice_between p p1 := by
            rcases node with ⟨ct⟩ | ⟨ct⟩ | ⟨ct⟩ | ⟨t, l, i, ct⟩ | ⟨r, lk, ct⟩
            · exact hcont rfl rfl
            · exact hcont rfl rfl
            · exact hcont rfl rfl
            · exact of_decide_eq_true hex.1
            · exact of_decide_eq_true hex.1
          have hcons : contents (node :: ns) = node.content ++ contents ns := by
            simp [contents]
          rw [hcons, hnc, hcontents, b]
          unfold slice_between
          exact slice_append_drop p.buffer p.offset p1.offset (by omega)

/-- With all reference links at the end, serialization does not reorder. -/
theorem to_text_of_ref_links_at_end (ns : List Node) (h : ref_links_at_end ns = true) :
    MarkdownDoc.to_text ⟨ns⟩ = contents ns := by
  unfold MarkdownDoc.to_text
  simp only
  rw [flatten_content_filter]
  have hA : ∀ n ∈ ns.takeWhile (fun n => !n.isRefLink), (!n.isRefLink) = true := by
    intro n hn
    exact @List.mem_takeWhile_imp Node (fun n => !n.isRefLink) ns n hn
  have hR : ∀ n ∈ ns.dropWhile (fun n => !n.isRefLink), n.isRefLink = true := by
    unfold ref_links_at_end at h
    exact fun n hn => List.all_eq_true.mp h n hn
  have hsplit : ns.takeWhile (fun n => !n.isRefLink) ++ ns.dropWhile (fun n => !n.isRefLink)
      = ns := List.takeWhile_append_dropWhile _ _
  have hf1 : ns.filter (fun c => !c.isRefLink) = ns.takeWhile (fun n => !n.isRefLink) := by
    conv_lhs => rw [← hsplit]
    rw [List.filter_append, List.filter_eq_self.mpr hA]
    have hz : (ns.dropWhile (fun n => !n.isRefLink)).filter (fun c => !c.isRefLink) = [] := by
      rw [List.filter_eq_nil]
      intro n hn
      simp [hR n hn]
    rw [hz, List.append_nil]
  have hf2 : ns.filter (fun c => c.isRefLink) = ns.dropWhile (fun n => !n.isRefLink) := by
    conv_lhs => rw [← hsplit]
    rw [List.filter_append]
    have h1 : (ns.takeWhile (fun n => !n.isRefLink)).filter (fun c => c.isRefLink) = [] := by
      rw [List.filter_eq_nil]
      intro n hn
      have := hA n hn
      simp only [Bool.not_eq_true'] at this
      simp [this]
    have h2 : (ns.dropWhile (fun n => !n.isRefLink)).filter (fun c => c.isRefLink)
        = ns.dropWhile (fun n => !n.isRefLink) := List.filter_eq_self.mpr (fun n hn => hR n hn)
    rw [h1, h2, List.nil_append]
  rw [hf1, hf2]
  unfold contents
  conv_rhs => rw [← hsplit]

/-- C1 (amended): serializing the parsed document reproduces the input
exactly provided (i) every tokenization step that emits a `Header` or
`RefLink` node regenerates exactly the text it consumed, and (ii) all
`RefLink` nodes are emitted after every non-`RefLink` node (otherwise
`to_text` floats them to the end); whitespace, code-block and paragraph
steps always carry exactly their consumed text, so condition (i) restricts
headers and reference links only. -/
theorem c1_roundtrip_amended :
    (∀ (text : List Char) (d : MarkdownDoc),
      parse_markdown text = some d →
      steps_exact text = true →
      ref_links_at_end d.children = true →
      d.to_text = text)
    ∧ (∀ (p : Parser) (node : Node) (q : Parser),
      p.offset ≤ p.buffer.length →
      parse_markdown_step p = some (node, q) →
      node.isHeader = false → node.isRefLink = false →
      node.content = slice_between p q) := by
  constructor
  · intro text d hparse hex hends
    unfold parse_markdown at hparse
    simp only at hparse
    have hleft : (Parser.mk text 0).left = text.length := by
      unfold Parser.left
      simp
    have hex2 : parse_markdown_steps_exact (Parser.mk text 0).left (Parser.mk text 0) = true := by
      rw [hleft]
      exact hex
    obtain ⟨ns, hgo, hcontents⟩ := parse_markdown_go_spec (Parser.mk text 0).left
      (Parser.mk text 0) [] (by simp) (Nat.le_refl _) hex2
    rw [hgo] at hparse
    rw [List.nil_append] at hparse
    simp only [Option.map_some'] at hparse
    have hd : d = ⟨ns⟩ := (Option.some.inj hparse).symm
    subst hd
    rw [to_text_of_ref_links_at_end ns hends, hcontents]
    simp
  · intro p node q hle hstep hH hR
    exact (parse_markdown_step_spec p hle node q hstep).2.2.2 hH hR

/-- C1 counterexample: the header text with two separating spaces is made of
recognized node shapes only, yet `parse_header` regenerates a single space,
so the round trip is not exact. -/
theorem c1_roundtrip_counterexample :
    (parse_markdown ("#  a\n").data).map MarkdownDoc.to_text = some (("# a\n").data)
    ∧ ("# a\n").data ≠ ("#  a\n").data := by
  refine ⟨by decide, by decide⟩

/-- C1 witness: the amended round trip applied to a document holding every
lossless shape plus a canonical header and a trailing reference link. -/
theorem c1_roundtrip_amended_witness :
    MarkdownDoc.to_text
        ⟨[Node.header ['a'] 1 none ['#', ' ', 'a', '\n'],
          Node.whitespace ['\n'],
          Node.paragraph ['x', '\n'],
          Node.whitespace ['\n'],
          Node.refLink ['r'] ['y'] ['[', 'r', ']', ':', ' ', 'y', '\n']]⟩
      = ("# a\n\nx\n\n[r]: y\n").data :=
  c1_roundtrip_amended.1 (("# a\n\nx\n\n[r]: y\n").data)
    ⟨[Node.header ['a'] 1 none ['#', ' ', 'a', '\n'],
      Node.whitespace ['\n'],
      Node.paragraph ['x', '\n'],
      Node.whitespace ['\n'],
      Node.refLink ['r'] ['y'] ['[', 'r', ']', ':', ' ', 'y', '\n']]⟩
    (by decide) (by decide) (by decide)
